import Mathlib

/-!
Shallow embedding of the APNG encoder core (`src/apng/encoder.rs`,
`src/apng.rs`, `src/apng/errors.rs`) of the `apng-encoder` crate.

Modelling conventions:
* Rust `u8` pixel bytes are `Nat`s; wrapping u8 subtraction is `wsub`
  (explicit `% 256`).  Rust `u32`/`usize` counters are `Nat`s; the 4-byte
  big-endian wire encoding truncates with an explicit `% 2^32` (`be32`).
* Fallible operations return `RunResult`: `ok`, `err e` (Rust `Err(ApngError)`)
  or `panic` (a Rust runtime abort: index out of bounds, division by zero,
  `unwrap` of `None`).
* The byte sink is modelled as the list of chunks the encoder has committed,
  in order; `sinkBytes` renders the exact byte stream (PNG signature followed
  by each chunk in the `length ‖ type ‖ data ‖ crc` layout of `write_chunk`).
  Every sink write in the source goes through `write_chunk` except the
  signature, so this is a faithful refactoring of the byte stream.
* The zlib compressor of the external `flate2` crate is an opaque parameter
  `zlib : List Nat → List Nat` (deterministic bytes-to-bytes function);
  the CRC-32 of `flate2::Crc` is modelled from the spec (see `crc32`).
-/

namespace Apng

/-- The error enumeration of `src/apng/errors.rs` (the `Io` variant is not
representable for the pure byte-sink model, which cannot fail). -/
inductive ApngError where
  | DefaultImageNotAtFirst
  | InvalidArgument
  | InvalidColor
  | InvalidDefaultImageRectangle
  | MulitiDefaultImage
  | NotEnoughFrames (expected actual : Nat)
  | NotEnoughArgument
  | TooLargeImage
  | TooManyFrames (expected actual : Nat)
  | TooSmallImage
  deriving DecidableEq

/-- Result of running a piece of Rust code: success, an `ApngError`, or a
runtime panic (index out of bounds, division by zero, unwrap of None). -/
inductive RunResult (α : Type) where
  | ok (a : α)
  | err (e : ApngError)
  | panic
  deriving DecidableEq

namespace RunResult

def map {α β : Type} (f : α → β) : RunResult α → RunResult β
  | .ok a => .ok (f a)
  | .err e => .err e
  | .panic => .panic

def isOk {α : Type} : RunResult α → Bool
  | .ok _ => true
  | _ => false

end RunResult

/-- `Color` of `src/apng.rs`: color model with bit depth. -/
inductive Color where
  | Grayscale (b : Nat)
  | GrayscaleA (b : Nat)
  | RGB (b : Nat)
  | RGBA (b : Nat)
  deriving DecidableEq

/-- `Color::bit_depth` of `src/apng.rs`. -/
def Color.bit_depth : Color → Nat
  | .Grayscale b | .GrayscaleA b | .RGB b | .RGBA b => b

/-- `Color::pixel_bytes` of `src/apng.rs`. -/
def Color.pixel_bytes : Color → Nat
  | .Grayscale 16 => 2
  | .Grayscale _ => 1
  | .GrayscaleA 16 => 4
  | .GrayscaleA _ => 2
  | .RGB 16 => 6
  | .RGB _ => 3
  | .RGBA 16 => 8
  | .RGBA _ => 4

/-- `Meta` of `src/apng.rs`. -/
structure Meta where
  color : Color
  frames : Nat
  height : Nat
  plays : Option Nat
  width : Nat
  deriving DecidableEq

/-- `Delay` of `src/apng.rs` (two u16 fields). -/
structure Delay where
  numerator : Nat
  denominator : Nat
  deriving DecidableEq

/-- `DisposeOperator` of `src/apng.rs`. -/
inductive DisposeOperator where
  | None
  | Background
  | Previous
  deriving DecidableEq

/-- The discriminant value of `DisposeOperator` (`as u8` in the source). -/
def DisposeOperator.toNat : DisposeOperator → Nat
  | .None => 0
  | .Background => 1
  | .Previous => 2

/-- `BlendOperator` of `src/apng.rs`. -/
inductive BlendOperator where
  | Source
  | Over
  deriving DecidableEq

/-- The discriminant value of `BlendOperator` (`as u8` in the source). -/
def BlendOperator.toNat : BlendOperator → Nat
  | .Source => 0
  | .Over => 1

/-- `Frame` of `src/apng.rs`: per-frame parameters, all optional. -/
structure Frame where
  width : Option Nat := none
  height : Option Nat := none
  x : Option Nat := none
  y : Option Nat := none
  delay : Option Delay := none
  dispose_operator : Option DisposeOperator := none
  blend_operator : Option BlendOperator := none
  deriving DecidableEq

/-- `Filter` of `src/apng/encoder.rs`. -/
inductive Filter where
  | None
  | Sub
  | Up
  | Average
  | Paeth
  deriving DecidableEq

/-- The five filters in the order `Filter::into_enum_iter()` yields them
(declaration order of the enum). -/
def allFilters : List Filter := [.None, .Sub, .Up, .Average, .Paeth]

/-- `Rectangle` of `src/apng/encoder.rs`. -/
structure Rectangle where
  height : Nat
  modified : Bool
  width : Nat
  x : Nat
  y : Nat
  deriving DecidableEq

/-- `Rectangle::right` of `src/apng/encoder.rs`. -/
def Rectangle.right (r : Rectangle) : Nat := r.x + r.width

/-- `Rectangle.bottom` of `src/apng/encoder.rs`. -/
def Rectangle.bottom (r : Rectangle) : Nat := r.y + r.height

/-! ### Byte-level helpers -/

/-- Wrapping u8 subtraction `a.wrapping_sub(b)` (arguments are byte values;
for `a b < 256` this is Rust's wrapping subtraction). -/
def wsub (a b : Nat) : Nat := (a + 256 - b % 256) % 256

/-- Big-endian 4-byte encoding of a `u32` value (`write_u32::<BigEndian>`);
the `% 2 ^ 32` is the u32 truncation. -/
def be32 (n : Nat) : List Nat :=
  [n / 2 ^ 24 % 256, n / 2 ^ 16 % 256, n / 2 ^ 8 % 256, n % 256]

/-- Big-endian 2-byte encoding of a `u16` value (`write_u16::<BigEndian>`). -/
def be16 (n : Nat) : List Nat := [n / 2 ^ 8 % 256, n % 256]

/-- Big-endian decoding of a 4-byte list (used to read sequence fields and
chunk headers back out of the byte stream). -/
def decodeBe32 (l : List Nat) : Nat :=
  ((l.getD 0 0 * 256 + l.getD 1 0) * 256 + l.getD 2 0) * 256 + l.getD 3 0

/-! ### `slice::chunks`

`image_data.chunks(row_stride)` splits a byte slice into consecutive rows of
`row_stride` bytes, the last one possibly shorter.  Rust panics when the
chunk size is 0; every caller in the embedding guards that case explicitly,
so `chunks` itself is only ever used with a positive size.  The definition
uses fuel (the list length) to stay structurally recursive. -/

def chunksGo (n : Nat) : Nat → List Nat → List (List Nat)
  | _, [] => []
  | 0, _ :: _ => []
  | fuel + 1, x :: xs => (x :: xs).take n :: chunksGo n fuel ((x :: xs).drop n)

/-- `l.chunks n` for `1 ≤ n`: consecutive pieces of `n` elements, the last
possibly shorter. -/
def chunks (n : Nat) (l : List Nat) : List (List Nat) := chunksGo n l.length l

/-! ### The five row filters (`src/apng/encoder.rs` lines 317-428)

Each Rust filter streams, per scanline, a 1-byte filter tag followed by
`row_stride` output bytes kept in a `vec![0; row_stride]` buffer.  The
embedding computes each emitted row as a `List Nat` of length `row_stride`
(`List.range row_stride |>.map …` mirrors the buffer writes; `getD … 0`
stands for slice indexing, which is only reached in-bounds because each
filter first checks the exact conditions under which the Rust indexing would
panic and returns `.panic` otherwise). -/

/-- The output row of `filter_sub` for one scanline `line`. -/
def subRow (pb n : Nat) (line : List Nat) : List Nat :=
  (List.range n).map fun i =>
    if i < pb then line.getD i 0
    else wsub (line.getD i 0) (line.getD (i - pb) 0)

/-- The output row of `filter_up` for a window `(a, b)` of scanlines
(`a` above, `b` current). -/
def upRow (n : Nat) (a b : List Nat) : List Nat :=
  (List.range n).map fun i => wsub (b.getD i 0) (a.getD i 0)

/-- The output row of `filter_average` for the first scanline. -/
def avgRow0 (pb n : Nat) (l : List Nat) : List Nat :=
  (List.range n).map fun i =>
    if i < pb then l.getD i 0
    else wsub (l.getD i 0) (l.getD (i - pb) 0 / 2)

/-- The output row of `filter_average` for a window `(a, b)` of scanlines.
The interior sum is computed in i16 then truncated `as u8` (the `% 256`). -/
def avgRow (pb n : Nat) (a b : List Nat) : List Nat :=
  (List.range n).map fun i =>
    if i < pb then wsub (b.getD i 0) (a.getD i 0 / 2)
    else wsub (b.getD i 0) ((b.getD (i - pb) 0 + a.getD i 0) / 2 % 256)

/-- The nested `paeth` predictor of `filter_paeth` (argument order of the
source: left, upper-left, up); arithmetic in i16, here `Int`. -/
def paeth (left up_left up : Nat) : Nat :=
  let w_left : Int := left
  let w_up : Int := up
  let w_up_left : Int := up_left
  let base := w_left + w_up - w_up_left
  let d_left := (base - w_left).natAbs
  let d_up := (base - w_up).natAbs
  let d_up_left := (base - w_up_left).natAbs
  if d_left ≤ d_up ∧ d_left ≤ d_up_left then left
  else if d_up ≤ d_up_left then up
  else up_left

/-- The output row of `filter_paeth` for the first scanline. -/
def paethRow0 (pb n : Nat) (l : List Nat) : List Nat :=
  (List.range n).map fun i =>
    if i < pb then l.getD i 0
    else wsub (l.getD i 0) (paeth (l.getD (i - pb) 0) 0 0)

/-- The output row of `filter_paeth` for a window `(a, b)` of scanlines. -/
def paethRow (pb n : Nat) (a b : List Nat) : List Nat :=
  (List.range n).map fun i =>
    if i < pb then wsub (b.getD i 0) (paeth 0 0 (a.getD i 0))
    else wsub (b.getD i 0)
      (paeth (b.getD (i - pb) 0) (a.getD (i - pb) 0) (a.getD i 0))

/-- `filter_none`: tag byte 0 then the raw scanline (partial last line
written as-is).  Panics only on `chunks(0)`. -/
def filter_none (image_data : List Nat) (row_stride : Nat) : RunResult (List Nat) :=
  if row_stride = 0 then .panic
  else .ok (((chunks row_stride image_data).map fun line => 0 :: line).flatten)

/-- `filter_sub`: per line, the first `pixel_bytes` bytes raw, then
byte-wise `line[i] - line[i - pixel_bytes]`.  The Rust code panics when
`buffer[..pixel_bytes]` or `line[..pixel_bytes]` is out of range, or when
the loop reads `line[i]` for `i < row_stride` past the end of a (short,
final) line. -/
def filter_sub (image_data : List Nat) (row_stride pixel_bytes : Nat) :
    RunResult (List Nat) :=
  if row_stride = 0 then .panic
  else if ∀ line ∈ chunks row_stride image_data,
      pixel_bytes ≤ row_stride ∧ pixel_bytes ≤ line.length ∧
        (pixel_bytes < row_stride → row_stride ≤ line.length) then
    .ok (((chunks row_stride image_data).map
      fun line => 1 :: subRow pixel_bytes row_stride line).flatten)
  else .panic

/-- `filter_up`: the first line is written raw (tag 2); each later line is
`line[1][i] - line[0][i]` over `lines.windows(2)`.  `lines[0]` panics on an
empty row list; the window loop reads both lines up to `row_stride`. -/
def filter_up (image_data : List Nat) (row_stride : Nat) : RunResult (List Nat) :=
  if row_stride = 0 then .panic
  else
    match chunks row_stride image_data with
    | [] => .panic
    | l0 :: rest =>
      if ∀ p ∈ (l0 :: rest).zip rest,
          row_stride ≤ p.1.length ∧ row_stride ≤ p.2.length then
        .ok ((2 :: l0) ++
          (((l0 :: rest).zip rest).map fun p => 2 :: upRow row_stride p.1 p.2).flatten)
      else .panic

/-- `filter_average` (source lines 358-382); panic conditions mirror the
slice indexing of the first-row code and of the window loops. -/
def filter_average (image_data : List Nat) (row_stride pixel_bytes : Nat) :
    RunResult (List Nat) :=
  if row_stride = 0 then .panic
  else
    match chunks row_stride image_data with
    | [] => .panic
    | l0 :: rest =>
      if (pixel_bytes ≤ row_stride ∧ pixel_bytes ≤ l0.length ∧
            (pixel_bytes < row_stride → row_stride ≤ l0.length)) ∧
          ∀ p ∈ (l0 :: rest).zip rest,
            (min pixel_bytes row_stride ≤ p.1.length ∧
              min pixel_bytes row_stride ≤ p.2.length) ∧
            (pixel_bytes < row_stride →
              row_stride ≤ p.1.length ∧ row_stride ≤ p.2.length) then
        .ok ((3 :: avgRow0 pixel_bytes row_stride l0) ++
          (((l0 :: rest).zip rest).map
            fun p => 3 :: avgRow pixel_bytes row_stride p.1 p.2).flatten)
      else .panic

/-- `filter_paeth` (source lines 384-428); panic conditions mirror the
slice indexing of the first-row code and of the window loops. -/
def filter_paeth (image_data : List Nat) (row_stride pixel_bytes : Nat) :
    RunResult (List Nat) :=
  if row_stride = 0 then .panic
  else
    match chunks row_stride image_data with
    | [] => .panic
    | l0 :: rest =>
      if (pixel_bytes ≤ row_stride ∧ pixel_bytes ≤ l0.length ∧
            (pixel_bytes < row_stride → row_stride ≤ l0.length)) ∧
          ∀ p ∈ (l0 :: rest).zip rest,
            (min pixel_bytes row_stride ≤ p.1.length ∧
              min pixel_bytes row_stride ≤ p.2.length) ∧
            (pixel_bytes < row_stride →
              row_stride ≤ p.1.length ∧ row_stride ≤ p.2.length) then
        .ok ((4 :: paethRow0 pixel_bytes row_stride l0) ++
          (((l0 :: rest).zip rest).map
            fun p => 4 :: paethRow pixel_bytes row_stride p.1 p.2).flatten)
      else .panic

/-- `Filter::apply` of `src/apng/encoder.rs`. -/
def Filter.apply (f : Filter) (image_data : List Nat)
    (row_stride pixel_bytes : Nat) : RunResult (List Nat) :=
  match f with
  | .Average => filter_average image_data row_stride pixel_bytes
  | .None => filter_none image_data row_stride
  | .Paeth => filter_paeth image_data row_stride pixel_bytes
  | .Sub => filter_sub image_data row_stride pixel_bytes
  | .Up => filter_up image_data row_stride

/-! ### Filter inference (`get_compressed_size`, `infer_best_filter`) -/

/-- `get_compressed_size` of `src/apng/encoder.rs`: despite its name it
applies the filter into a plain `Vec` (no compressor is involved) and
returns the length of the raw filtered output. -/
def get_compressed_size (filter : Filter) (image_data : List Nat)
    (row_stride pixel_bytes : Nat) : RunResult Nat :=
  (filter.apply image_data row_stride pixel_bytes).map List.length

/-- The sampled scanlines `tiny_image_data` built by `infer_best_filter`:
top/middle/bottom 10 rows each when the image has more than 50 lines,
otherwise the first up-to-10 rows. -/
def tiny_image_data (image_data : List Nat) (row_stride : Nat) : List Nat :=
  let len := image_data.length
  let lines := len / row_stride
  if 50 < lines then
    let top_end := row_stride * 10
    let middle_start := max top_end (lines / 2 * row_stride)
    let middle_end := min (middle_start + 10 * row_stride) len
    let bottom_start := max middle_end ((max lines 10 - 10) * row_stride)
    image_data.take top_end ++
      ((image_data.drop middle_start).take (middle_end - middle_start)) ++
      image_data.drop bottom_start
  else
    image_data.take (min 10 lines * row_stride)

/-- The `(filter, size)` result list built by the `for filter in
Filter::into_enum_iter()` loop of `infer_best_filter`; the first error or
panic aborts the loop. -/
def inferResults (tiny : List Nat) (row_stride pixel_bytes : Nat) :
    List Filter → RunResult (List (Filter × Nat))
  | [] => .ok []
  | f :: fs =>
    match get_compressed_size f tiny row_stride pixel_bytes with
    | .ok size =>
      match inferResults tiny row_stride pixel_bytes fs with
      | .ok rest => .ok ((f, size) :: rest)
      | .err e => .err e
      | .panic => .panic
    | .err e => .err e
    | .panic => .panic

/-- Rust's `Iterator::max_by_key` on the second component: of several
equally-maximal elements the LAST is returned, hence the `≤` in the
replacement test. -/
def maxBySnd (l : List (Filter × Nat)) : Option (Filter × Nat) :=
  l.foldl (fun best x =>
    match best with
    | Option.none => some x
    | some b => if b.2 ≤ x.2 then some x else some b) Option.none

/-- `infer_best_filter` of `src/apng/encoder.rs`.  `len / row_stride`
panics for stride 0; the final `.unwrap()` on `max_by_key` panics when the
result list is empty (never, since `allFilters` is non-empty). -/
def infer_best_filter (image_data : List Nat) (row_stride pixel_bytes : Nat) :
    RunResult Filter :=
  if row_stride = 0 then .panic
  else
    let tiny := tiny_image_data image_data row_stride
    match inferResults tiny row_stride pixel_bytes allFilters with
    | .ok results =>
      match maxBySnd results with
      | some p => .ok p.1
      | Option.none => .panic
    | .err e => .err e
    | .panic => .panic

/-! ### CRC-32 and chunk framing -/

/-- Modelled from the spec: one bit-step of the PNG CRC-32 kept by the
external `flate2::Crc` — reflected polynomial `0xEDB88320`. -/
def crc32Round (c : Nat) : Nat :=
  if c % 2 = 1 then (c / 2) ^^^ 0xEDB88320 else c / 2

/-- Eight CRC bit-steps. -/
def crc32Rounds : Nat → Nat → Nat
  | 0, c => c
  | k + 1, c => crc32Rounds k (crc32Round c)

/-- Modelled from the spec: feeding one byte into the CRC register. -/
def crc32Update (c b : Nat) : Nat := crc32Rounds 8 (c ^^^ b % 256)

/-- Modelled from the spec: the PNG CRC-32 of `flate2::Crc` — polynomial
`0xEDB88320`, reflected, initial value `0xFFFFFFFF`, final XOR
`0xFFFFFFFF`. -/
def crc32 (bytes : List Nat) : Nat :=
  (bytes.foldl crc32Update 0xFFFFFFFF) ^^^ 0xFFFFFFFF

/-- One committed chunk: its 4-byte type and its data payload. -/
structure Chunk where
  ctype : List Nat
  cdata : List Nat
  deriving DecidableEq

/-- The byte rendering a single `write_chunk` call produces:
`length:u32 ‖ type ‖ data ‖ crc:u32`, integers big-endian, CRC over
`type ‖ data` (source lines 232-245). -/
def chunkBytes (c : Chunk) : List Nat :=
  be32 c.cdata.length ++ c.ctype ++ c.cdata ++ be32 (crc32 (c.ctype ++ c.cdata))

def typeIHDR : List Nat := [0x49, 0x48, 0x44, 0x52]
def typeAcTL : List Nat := [0x61, 0x63, 0x54, 0x4C]
def typeFcTL : List Nat := [0x66, 0x63, 0x54, 0x4C]
def typeFdAT : List Nat := [0x66, 0x64, 0x41, 0x54]
def typeIDAT : List Nat := [0x49, 0x44, 0x41, 0x54]
def typeIEND : List Nat := [0x49, 0x45, 0x4E, 0x44]

/-- The 8-byte PNG signature written by `write_signature`. -/
def pngSignature : List Nat := [0x89, 0x50, 0x4E, 0x47, 0x0D, 0x0A, 0x1A, 0x0A]

/-! ### Encoder state and operations -/

/-- The `Encoder` struct of `src/apng/encoder.rs`; the borrowed byte sink is
represented by the list of chunks committed so far (`chunks`), rendered to
bytes by `sinkBytes`. -/
structure EncState where
  default_image : Bool
  meta : Meta
  sequence : Nat
  written_frames : Nat
  chunks : List Chunk
  deriving DecidableEq

/-- The exact byte stream in the sink: signature then each chunk in
`write_chunk` layout. -/
def sinkBytes (st : EncState) : List Nat :=
  pngSignature ++ (st.chunks.map chunkBytes).flatten

/-- Append one committed chunk to the sink. -/
def appendChunk (st : EncState) (c : Chunk) : EncState :=
  { st with chunks := st.chunks ++ [c] }

/-- `compute_rect` of `src/apng/encoder.rs`. -/
def compute_rect (meta : Meta) (frame : Option Frame) : Rectangle :=
  let width := (frame.bind Frame.width).getD meta.width
  let height := (frame.bind Frame.height).getD meta.height
  let x := (frame.bind Frame.x).getD 0
  let y := (frame.bind Frame.y).getD 0
  let modified :=
    decide (x ≠ 0 ∨ y ≠ 0 ∨ width ≠ meta.width ∨ height ≠ meta.height)
  { width := width, height := height, x := x, y := y, modified := modified }

/-- `next_sequence`: returns the current counter and increments it. -/
def next_sequence (st : EncState) : Nat × EncState :=
  (st.sequence, { st with sequence := st.sequence + 1 })

/-- `compute_row_stride` of `src/apng/encoder.rs` (lines 193-203).
`image_data.len() / row_stride` panics on stride 0 (division by zero). -/
def compute_row_stride (meta : Meta) (image_data : List Nat)
    (row_stride : Option Nat) (rect : Rectangle) : RunResult Nat :=
  let row_stride := row_stride.getD (rect.width * meta.color.pixel_bytes)
  if row_stride = 0 then .panic
  else
    let data_height := image_data.length / row_stride
    if meta.width < rect.right ∨ meta.height < rect.bottom ∨
        rect.bottom < data_height then
      .err .TooLargeImage
    else if data_height < rect.height then
      .err .TooSmallImage
    else
      .ok row_stride

/-- `make_image_data` of `src/apng/encoder.rs`: validates the stride,
chooses a filter (the caller's or the inferred one), applies it and pipes
the filtered stream through the zlib compressor (`ZlibEncoder::new …
e.finish()`), returning the compressed payload. -/
def make_image_data (zlib : List Nat → List Nat) (meta : Meta)
    (image_data : List Nat) (row_stride : Option Nat) (rect : Rectangle)
    (filter : Option Filter) : RunResult (List Nat) :=
  match compute_row_stride meta image_data row_stride rect with
  | .ok stride =>
    let pixel_bytes := meta.color.pixel_bytes
    match (match filter with
           | some f => RunResult.ok f
           | Option.none => infer_best_filter image_data stride pixel_bytes) with
    | .ok f => (f.apply image_data stride pixel_bytes).map zlib
    | .err e => .err e
    | .panic => .panic
  | .err e => .err e
  | .panic => .panic

/-- `write_frame_control` (lines 247-265): consumes one sequence number and
commits one `fcTL` chunk; always succeeds for the pure sink. -/
def write_frame_control (st : EncState) (frame : Option Frame) :
    Rectangle × EncState :=
  let rect := compute_rect st.meta frame
  let delay := (frame.bind Frame.delay).getD ⟨0, 0⟩
  let dispose := ((frame.bind Frame.dispose_operator).getD .None).toNat
  let blend := ((frame.bind Frame.blend_operator).getD .Source).toNat
  let (seq, st) := next_sequence st
  let data := be32 seq ++ be32 rect.width ++ be32 rect.height ++
    be32 rect.x ++ be32 rect.y ++ be16 delay.numerator ++
    be16 delay.denominator ++ [dispose, blend]
  (rect, appendChunk st ⟨typeFcTL, data⟩)

/-- `write_animation_frame` (lines 205-212): `fcTL` then `fdAT`; the fdAT
payload starts with the next sequence number, which is consumed BEFORE the
image data is validated. -/
def write_animation_frame (zlib : List Nat → List Nat) (st : EncState)
    (image_data : List Nat) (row_stride : Option Nat) (frame : Option Frame)
    (filter : Option Filter) : RunResult Unit × EncState :=
  let (rect, st) := write_frame_control st frame
  let (seq, st) := next_sequence st
  match make_image_data zlib st.meta image_data row_stride rect filter with
  | .ok idata => (.ok (), appendChunk st ⟨typeFdAT, be32 seq ++ idata⟩)
  | .err e => (.err e, st)
  | .panic => (.panic, st)

/-- `write_animation_frame_with_default` (lines 214-223): `fcTL` then an
`IDAT` serving as default image; the rectangle must be unmodified. -/
def write_animation_frame_with_default (zlib : List Nat → List Nat)
    (st : EncState) (image_data : List Nat) (row_stride : Option Nat)
    (frame : Option Frame) (filter : Option Filter) :
    RunResult Unit × EncState :=
  let (rect, st) := write_frame_control st frame
  if rect.modified then (.err .InvalidDefaultImageRectangle, st)
  else
    match make_image_data zlib st.meta image_data row_stride rect filter with
    | .ok idata => (.ok (), appendChunk st ⟨typeIDAT, idata⟩)
    | .err e => (.err e, st)
    | .panic => (.panic, st)

/-- `write_frame` (lines 156-166).  Note `written_frames` is incremented
before the `TooManyFrames` check and stays incremented on failure. -/
def write_frame (zlib : List Nat → List Nat) (st : EncState)
    (image_data : List Nat) (frame : Option Frame) (filter : Option Filter)
    (row_stride : Option Nat) : RunResult Unit × EncState :=
  let st := { st with written_frames := st.written_frames + 1 }
  if st.meta.frames < st.written_frames then
    (.err (.TooManyFrames st.meta.frames st.written_frames), st)
  else if !st.default_image && st.sequence == 0 then
    write_animation_frame_with_default zlib st image_data row_stride frame filter
  else
    write_animation_frame zlib st image_data row_stride frame filter

/-- `write_default_image` (lines 141-154).  The `default_image` flag is set
BEFORE the image data is validated, so it stays set on failure. -/
def write_default_image (zlib : List Nat → List Nat) (st : EncState)
    (image_data : List Nat) (filter : Option Filter)
    (row_stride : Option Nat) : RunResult Unit × EncState :=
  if st.default_image then (.err .MulitiDefaultImage, st)
  else if 0 < st.sequence then (.err .DefaultImageNotAtFirst, st)
  else
    let st := { st with default_image := true }
    let rect := compute_rect st.meta Option.none
    match make_image_data zlib st.meta image_data row_stride rect filter with
    | .ok idata => (.ok (), appendChunk st ⟨typeIDAT, idata⟩)
    | .err e => (.err e, st)
    | .panic => (.panic, st)

/-- `validate_color` of `src/apng/encoder.rs`. -/
def validate_color (color : Color) : RunResult Unit :=
  match color with
  | .Grayscale b => if [1, 2, 4, 8, 16].contains b then .ok () else .err .InvalidColor
  | .GrayscaleA b | .RGB b | .RGBA b =>
    if [8, 16].contains b then .ok () else .err .InvalidColor

/-- The IHDR payload written by `write_image_header` (lines 267-283). -/
def ihdrData (meta : Meta) : List Nat :=
  let color_type : Nat :=
    match meta.color with
    | .Grayscale _ => 0b000
    | .GrayscaleA _ => 0b100
    | .RGB _ => 0b010
    | .RGBA _ => 0b110
  be32 meta.width ++ be32 meta.height ++
    [meta.color.bit_depth, color_type, 0, 0, 0]

/-- The acTL payload written by `write_animation_control` (lines 225-230). -/
def actlData (meta : Meta) : List Nat :=
  be32 meta.frames ++ be32 (meta.plays.getD 0)

/-- The state `Encoder::create` builds after a successful color validation:
signature, `IHDR`, `acTL` committed; all counters zero. -/
def initState (meta : Meta) : EncState :=
  { default_image := false, meta := meta, sequence := 0, written_frames := 0,
    chunks := [⟨typeIHDR, ihdrData meta⟩, ⟨typeAcTL, actlData meta⟩] }

/-- `Encoder::create` (lines 118-131). -/
def create (meta : Meta) : RunResult EncState :=
  match validate_color meta.color with
  | .ok _ => .ok (initState meta)
  | .err e => .err e
  | .panic => .panic

/-- `Encoder::finish` (lines 133-139): requires all declared frames, then
commits an empty `IEND`. -/
def finish (st : EncState) : RunResult Unit × EncState :=
  if st.written_frames < st.meta.frames then
    (.err (.NotEnoughFrames st.meta.frames st.written_frames), st)
  else
    (.ok (), appendChunk st ⟨typeIEND, []⟩)

/-! ### Runs: sequences of caller operations on one Encoder -/

/-- One caller operation between `create` and `finish`. -/
inductive Op where
  | writeFrame (image_data : List Nat) (frame : Option Frame)
      (filter : Option Filter) (row_stride : Option Nat)
  | writeDefaultImage (image_data : List Nat) (filter : Option Filter)
      (row_stride : Option Nat)
  deriving DecidableEq

/-- Dispatch one operation. -/
def stepOp (zlib : List Nat → List Nat) (st : EncState) :
    Op → RunResult Unit × EncState
  | .writeFrame d f fil rs => write_frame zlib st d f fil rs
  | .writeDefaultImage d fil rs => write_default_image zlib st d fil rs

/-- Run a list of operations, collecting each result.  An `err` leaves the
encoder usable (Rust methods take `&mut self`), a `panic` aborts the
process, so the trace stops there. -/
def runTrace (zlib : List Nat → List Nat) (st : EncState) :
    List Op → List (RunResult Unit) × EncState
  | [] => ([], st)
  | op :: ops =>
    let (r, st') := stepOp zlib st op
    match r with
    | .panic => ([.panic], st')
    | r =>
      let (rs, st'') := runTrace zlib st' ops
      (r :: rs, st'')

/-! ## Lemmas about `chunks` -/

theorem chunksGo_congr (n : Nat) (hn : 1 ≤ n) :
    ∀ (fuel fuel' : Nat) (l : List Nat), l.length ≤ fuel → l.length ≤ fuel' →
      chunksGo n fuel l = chunksGo n fuel' l := by
  intro fuel
  induction fuel with
  | zero =>
    intro fuel' l hl _
    have hl0 : l = [] := List.eq_nil_of_length_eq_zero (Nat.le_zero.mp hl)
    subst hl0
    cases fuel' <;> rfl
  | succ f ih =>
    intro fuel' l hl hl'
    match l with
    | [] => cases fuel' <;> rfl
    | x :: xs =>
      match fuel' with
      | 0 => simp at hl'
      | f' + 1 =>
        simp only [chunksGo]
        congr 1
        apply ih
        · simp only [List.length_drop, List.length_cons]
          simp only [List.length_cons] at hl
          omega
        · simp only [List.length_drop, List.length_cons]
          simp only [List.length_cons] at hl'
          omega

theorem chunksGo_eq_chunks (n : Nat) (hn : 1 ≤ n) (fuel : Nat) (l : List Nat)
    (h : l.length ≤ fuel) : chunksGo n fuel l = chunks n l :=
  chunksGo_congr n hn fuel l.length l h (Nat.le_refl _)

theorem chunks_nil (n : Nat) : chunks n [] = [] := rfl

theorem chunks_cons (n : Nat) (hn : 1 ≤ n) (x : Nat) (xs : List Nat) :
    chunks n (x :: xs) = (x :: xs).take n :: chunks n ((x :: xs).drop n) := by
  show chunksGo n (xs.length + 1) (x :: xs) = _
  simp only [chunksGo]
  congr 1
  apply chunksGo_eq_chunks n hn
  simp only [List.length_drop, List.length_cons]
  omega

theorem chunks_flatten (n : Nat) (hn : 1 ≤ n) (l : List Nat) :
    (chunks n l).flatten = l := by
  suffices h : ∀ (fuel : Nat) (l : List Nat), l.length ≤ fuel →
      (chunks n l).flatten = l from h l.length l (Nat.le_refl _)
  intro fuel
  induction fuel with
  | zero =>
    intro l hl
    have hl0 : l = [] := List.eq_nil_of_length_eq_zero (Nat.le_zero.mp hl)
    subst hl0; rfl
  | succ f ih =>
    intro l hl
    match l with
    | [] => rfl
    | x :: xs =>
      have hfl : ((x :: xs).drop n).length ≤ f := by
        simp only [List.length_drop, List.length_cons]
        simp only [List.length_cons] at hl
        omega
      rw [chunks_cons n hn, List.flatten_cons, ih ((x :: xs).drop n) hfl,
        List.take_append_drop]

theorem chunks_length_le (n : Nat) (hn : 1 ≤ n) (l : List Nat) :
    ∀ r ∈ chunks n l, r.length ≤ n := by
  suffices h : ∀ (fuel : Nat) (l : List Nat), l.length ≤ fuel →
      ∀ r ∈ chunks n l, r.length ≤ n from h l.length l (Nat.le_refl _)
  intro fuel
  induction fuel with
  | zero =>
    intro l hl
    have hl0 : l = [] := List.eq_nil_of_length_eq_zero (Nat.le_zero.mp hl)
    subst hl0; intro r hr; simp [chunks_nil] at hr
  | succ f ih =>
    intro l hl
    match l with
    | [] => intro r hr; simp [chunks_nil] at hr
    | x :: xs =>
      rw [chunks_cons n hn]
      intro r hr
      rcases List.mem_cons.mp hr with h | h
      · subst h; simp
      · have hfl : ((x :: xs).drop n).length ≤ f := by
          simp only [List.length_drop, List.length_cons]
          simp only [List.length_cons] at hl
          omega
        exact ih ((x :: xs).drop n) hfl r h

theorem dvd_drop_length (n : Nat) (hn : 1 ≤ n) (l : List Nat)
    (hd : n ∣ l.length) (hne : l ≠ []) :
    n ∣ (l.drop n).length ∧ n ≤ l.length := by
  rcases hd with ⟨k, hk⟩
  have hk1 : 1 ≤ k := by
    rcases Nat.eq_zero_or_pos k with h0 | h1
    · exfalso
      subst h0
      rw [Nat.mul_zero] at hk
      exact hne (List.eq_nil_of_length_eq_zero hk)
    · exact h1
  have hle : n ≤ l.length := by
    rw [hk]
    calc n = n * 1 := (Nat.mul_one n).symm
      _ ≤ n * k := Nat.mul_le_mul_left n hk1
  refine ⟨⟨k - 1, ?_⟩, hle⟩
  simp only [List.length_drop, hk]
  cases k with
  | zero => omega
  | succ k =>
    rw [Nat.add_sub_cancel, Nat.mul_succ, Nat.add_sub_cancel]

theorem chunks_length_eq_of_dvd (n : Nat) (hn : 1 ≤ n) (l : List Nat)
    (hd : n ∣ l.length) : ∀ r ∈ chunks n l, r.length = n := by
  suffices h : ∀ (fuel : Nat) (l : List Nat), l.length ≤ fuel → n ∣ l.length →
      ∀ r ∈ chunks n l, r.length = n from h l.length l (Nat.le_refl _) hd
  intro fuel
  induction fuel with
  | zero =>
    intro l hl _
    have hl0 : l = [] := List.eq_nil_of_length_eq_zero (Nat.le_zero.mp hl)
    subst hl0; intro r hr; simp [chunks_nil] at hr
  | succ f ih =>
    intro l hl hdvd
    match l with
    | [] => intro r hr; simp [chunks_nil] at hr
    | x :: xs =>
      obtain ⟨hdrop, hlen⟩ := dvd_drop_length n hn (x :: xs) hdvd (by simp)
      rw [chunks_cons n hn]
      intro r hr
      rcases List.mem_cons.mp hr with h | h
      · subst h; simp only [List.length_take, List.length_cons]
        simp only [List.length_cons] at hlen; omega
      · have hfl : ((x :: xs).drop n).length ≤ f := by
          simp only [List.length_drop, List.length_cons]
          simp only [List.length_cons] at hl
          omega
        exact ih ((x :: xs).drop n) hfl hdrop r h

theorem div_sub_add_one (n m : Nat) (hn : 1 ≤ n) (hd : n ∣ m) (hm : n ≤ m) :
    (m - n) / n + 1 = m / n := by
  obtain ⟨k, rfl⟩ := hd
  cases k with
  | zero =>
    rw [Nat.mul_zero] at hm
    omega
  | succ k =>
    rw [Nat.mul_succ, Nat.add_sub_cancel,
      Nat.mul_div_cancel_left _ (by omega : 0 < n), ← Nat.mul_succ,
      Nat.mul_div_cancel_left _ (by omega : 0 < n)]

theorem chunks_count_of_dvd (n : Nat) (hn : 1 ≤ n) (l : List Nat)
    (hd : n ∣ l.length) : (chunks n l).length = l.length / n := by
  suffices h : ∀ (fuel : Nat) (l : List Nat), l.length ≤ fuel → n ∣ l.length →
      (chunks n l).length = l.length / n from h l.length l (Nat.le_refl _) hd
  intro fuel
  induction fuel with
  | zero =>
    intro l hl _
    have hl0 : l = [] := List.eq_nil_of_length_eq_zero (Nat.le_zero.mp hl)
    subst hl0; simp [chunks_nil]
  | succ f ih =>
    intro l hl hdvd
    match l with
    | [] => simp [chunks_nil]
    | x :: xs =>
      obtain ⟨hdrop, hlen⟩ := dvd_drop_length n hn (x :: xs) hdvd (by simp)
      rw [chunks_cons n hn]
      simp only [List.length_cons]
      have hfl : ((x :: xs).drop n).length ≤ f := by
        simp only [List.length_drop, List.length_cons]
        simp only [List.length_cons] at hl
        omega
      rw [ih ((x :: xs).drop n) hfl hdrop]
      simp only [List.length_drop]
      exact div_sub_add_one n (x :: xs).length hn hdvd hlen

theorem chunks_flatten_inv (n : Nat) (hn : 1 ≤ n) (rs : List (List Nat))
    (h : ∀ r ∈ rs, r.length = n) : chunks n rs.flatten = rs := by
  induction rs with
  | nil => rfl
  | cons r rs ih =>
    have hr : r.length = n := h r (List.mem_cons_self _ _)
    have hr' : r ≠ [] := by
      intro he; rw [he] at hr; simp at hr; omega
    match r, hr' with
    | x :: xs, _ =>
      rw [List.flatten_cons]
      rw [show (x :: xs) ++ rs.flatten = x :: (xs ++ rs.flatten) from rfl]
      rw [chunks_cons n hn]
      have heq : x :: (xs ++ rs.flatten) = (x :: xs) ++ rs.flatten := rfl
      have h1 : (x :: (xs ++ rs.flatten)).take n = x :: xs := by
        rw [heq, List.take_append_of_le_length (by simp only [List.length_cons] at hr ⊢; omega),
          ← hr, List.take_length]
      have h2 : (x :: (xs ++ rs.flatten)).drop n = rs.flatten := by
        rw [heq, List.drop_append_of_le_length (by simp only [List.length_cons] at hr ⊢; omega),
          ← hr, List.drop_length, List.nil_append]
      rw [h1, h2, ih (fun r hrm => h r (List.mem_cons_of_mem _ hrm))]

theorem mem_of_mem_chunks (n : Nat) (hn : 1 ≤ n) (l : List Nat) :
    ∀ r ∈ chunks n l, ∀ x ∈ r, x ∈ l := by
  suffices h : ∀ (fuel : Nat) (l : List Nat), l.length ≤ fuel →
      ∀ r ∈ chunks n l, ∀ x ∈ r, x ∈ l from h l.length l (Nat.le_refl _)
  intro fuel
  induction fuel with
  | zero =>
    intro l hl
    have hl0 : l = [] := List.eq_nil_of_length_eq_zero (Nat.le_zero.mp hl)
    subst hl0; intro r hr; simp [chunks_nil] at hr
  | succ f ih =>
    intro l hl
    match l with
    | [] => intro r hr; simp [chunks_nil] at hr
    | y :: ys =>
      rw [chunks_cons n hn]
      intro r hr x hx
      rcases List.mem_cons.mp hr with h | h
      · exact List.mem_of_mem_take (h ▸ hx)
      · have hfl : ((y :: ys).drop n).length ≤ f := by
          simp only [List.length_drop, List.length_cons]
          simp only [List.length_cons] at hl
          omega
        exact List.mem_of_mem_drop (ih ((y :: ys).drop n) hfl r h x hx)

theorem chunks_ne_nil (n : Nat) (hn : 1 ≤ n) (l : List Nat) (hl : l ≠ []) :
    chunks n l ≠ [] := by
  match l with
  | [] => exact absurd rfl hl
  | x :: xs => rw [chunks_cons n hn]; simp

/-! ## Lengths of filtered output -/

theorem subRow_length (pb n : Nat) (l : List Nat) : (subRow pb n l).length = n := by
  simp [subRow]

theorem upRow_length (n : Nat) (a b : List Nat) : (upRow n a b).length = n := by
  simp [upRow]

theorem avgRow0_length (pb n : Nat) (l : List Nat) : (avgRow0 pb n l).length = n := by
  simp [avgRow0]

theorem avgRow_length (pb n : Nat) (a b : List Nat) : (avgRow pb n a b).length = n := by
  simp [avgRow]

theorem paethRow0_length (pb n : Nat) (l : List Nat) : (paethRow0 pb n l).length = n := by
  simp [paethRow0]

theorem paethRow_length (pb n : Nat) (a b : List Nat) : (paethRow pb n a b).length = n := by
  simp [paethRow]

/-- Length of a per-row encoded stream: each row contributes a tag byte and
`s` filtered bytes. -/
theorem flatten_rows_length (s : Nat) (rows : List (List Nat))
    (h : ∀ r ∈ rows, r.length = 1 + s) :
    rows.flatten.length = rows.length * (1 + s) := by
  induction rows with
  | nil => simp
  | cons r rows ih =>
    simp only [List.flatten_cons, List.length_append, List.length_cons]
    rw [h r (List.mem_cons_self _ _), ih (fun r hr => h r (List.mem_cons_of_mem _ hr))]
    ring

theorem zip_tail_length {α : Type} (l0 : α) (rest : List α) :
    ((l0 :: rest).zip rest).length = rest.length := by
  simp [List.length_zip]

/-- `filter_none` under a positive stride: the ok branch, explicitly. -/
theorem filter_none_ok (data : List Nat) (s : Nat) (hs : 1 ≤ s) :
    filter_none data s =
      .ok (((chunks s data).map fun line => 0 :: line).flatten) := by
  unfold filter_none
  rw [if_neg (by omega)]

/-- `filter_sub` on complete rows with `pixel_bytes ≤ row_stride`. -/
theorem filter_sub_ok (data : List Nat) (s pb : Nat) (hs : 1 ≤ s)
    (hpb : pb ≤ s) (hdvd : s ∣ data.length) :
    filter_sub data s pb =
      .ok (((chunks s data).map fun line => 1 :: subRow pb s line).flatten) := by
  unfold filter_sub
  rw [if_neg (by omega), if_pos]
  intro line hline
  have hlen : line.length = s := chunks_length_eq_of_dvd s hs data hdvd line hline
  exact ⟨hpb, by omega, fun _ => by omega⟩

/-- `filter_up` on complete rows of a non-empty image. -/
theorem filter_up_ok (data : List Nat) (s : Nat) (hs : 1 ≤ s)
    (hdvd : s ∣ data.length) (hne : data ≠ []) :
    ∃ l0 rest, chunks s data = l0 :: rest ∧
      filter_up data s = .ok ((2 :: l0) ++
        (((l0 :: rest).zip rest).map fun p => 2 :: upRow s p.1 p.2).flatten) := by
  obtain ⟨l0, rest, hrows⟩ : ∃ l0 rest, chunks s data = l0 :: rest := by
    match h : chunks s data with
    | [] => exact absurd h (chunks_ne_nil s hs data hne)
    | l0 :: rest => exact ⟨l0, rest, rfl⟩
  refine ⟨l0, rest, hrows, ?_⟩
  have hcond : ∀ p ∈ (l0 :: rest).zip rest, s ≤ p.1.length ∧ s ≤ p.2.length := by
    intro p hp
    have hmem := List.of_mem_zip hp
    have h1 : p.1.length = s := by
      refine chunks_length_eq_of_dvd s hs data hdvd p.1 ?_
      rw [hrows]; exact hmem.1
    have h2 : p.2.length = s := by
      refine chunks_length_eq_of_dvd s hs data hdvd p.2 ?_
      rw [hrows]; exact List.mem_cons_of_mem _ hmem.2
    omega
  unfold filter_up
  rw [if_neg (by omega), hrows]
  exact if_pos hcond

/-- `filter_average` on complete rows of a non-empty image with
`pixel_bytes ≤ row_stride`. -/
theorem filter_average_ok (data : List Nat) (s pb : Nat) (hs : 1 ≤ s)
    (hpb : pb ≤ s) (hdvd : s ∣ data.length) (hne : data ≠ []) :
    ∃ l0 rest, chunks s data = l0 :: rest ∧
      filter_average data s pb = .ok ((3 :: avgRow0 pb s l0) ++
        (((l0 :: rest).zip rest).map fun p => 3 :: avgRow pb s p.1 p.2).flatten) := by
  obtain ⟨l0, rest, hrows⟩ : ∃ l0 rest, chunks s data = l0 :: rest := by
    match h : chunks s data with
    | [] => exact absurd h (chunks_ne_nil s hs data hne)
    | l0 :: rest => exact ⟨l0, rest, rfl⟩
  refine ⟨l0, rest, hrows, ?_⟩
  have hl0 : l0.length = s := by
    refine chunks_length_eq_of_dvd s hs data hdvd l0 ?_
    rw [hrows]; exact List.mem_cons_self _ _
  have hcond : (pb ≤ s ∧ pb ≤ l0.length ∧ (pb < s → s ≤ l0.length)) ∧
      ∀ p ∈ (l0 :: rest).zip rest,
        (min pb s ≤ p.1.length ∧ min pb s ≤ p.2.length) ∧
        (pb < s → s ≤ p.1.length ∧ s ≤ p.2.length) := by
    refine ⟨⟨hpb, by omega, fun _ => by omega⟩, ?_⟩
    intro p hp
    have hmem := List.of_mem_zip hp
    have h1 : p.1.length = s := by
      refine chunks_length_eq_of_dvd s hs data hdvd p.1 ?_
      rw [hrows]; exact hmem.1
    have h2 : p.2.length = s := by
      refine chunks_length_eq_of_dvd s hs data hdvd p.2 ?_
      rw [hrows]; exact List.mem_cons_of_mem _ hmem.2
    refine ⟨⟨?_, ?_⟩, fun _ => ⟨?_, ?_⟩⟩ <;> omega
  unfold filter_average
  rw [if_neg (by omega), hrows]
  exact if_pos hcond

/-- `filter_paeth` on complete rows of a non-empty image with
`pixel_bytes ≤ row_stride`. -/
theorem filter_paeth_ok (data : List Nat) (s pb : Nat) (hs : 1 ≤ s)
    (hpb : pb ≤ s) (hdvd : s ∣ data.length) (hne : data ≠ []) :
    ∃ l0 rest, chunks s data = l0 :: rest ∧
      filter_paeth data s pb = .ok ((4 :: paethRow0 pb s l0) ++
        (((l0 :: rest).zip rest).map fun p => 4 :: paethRow pb s p.1 p.2).flatten) := by
  obtain ⟨l0, rest, hrows⟩ : ∃ l0 rest, chunks s data = l0 :: rest := by
    match h : chunks s data with
    | [] => exact absurd h (chunks_ne_nil s hs data hne)
    | l0 :: rest => exact ⟨l0, rest, rfl⟩
  refine ⟨l0, rest, hrows, ?_⟩
  have hl0 : l0.length = s := by
    refine chunks_length_eq_of_dvd s hs data hdvd l0 ?_
    rw [hrows]; exact List.mem_cons_self _ _
  have hcond : (pb ≤ s ∧ pb ≤ l0.length ∧ (pb < s → s ≤ l0.length)) ∧
      ∀ p ∈ (l0 :: rest).zip rest,
        (min pb s ≤ p.1.length ∧ min pb s ≤ p.2.length) ∧
        (pb < s → s ≤ p.1.length ∧ s ≤ p.2.length) := by
    refine ⟨⟨hpb, by omega, fun _ => by omega⟩, ?_⟩
    intro p hp
    have hmem := List.of_mem_zip hp
    have h1 : p.1.length = s := by
      refine chunks_length_eq_of_dvd s hs data hdvd p.1 ?_
      rw [hrows]; exact hmem.1
    have h2 : p.2.length = s := by
      refine chunks_length_eq_of_dvd s hs data hdvd p.2 ?_
      rw [hrows]; exact List.mem_cons_of_mem _ hmem.2
    refine ⟨⟨?_, ?_⟩, fun _ => ⟨?_, ?_⟩⟩ <;> omega
  unfold filter_paeth
  rw [if_neg (by omega), hrows]
  exact if_pos hcond

/-- On complete rows every filter produces output of the same length:
`rows * (1 + row_stride)`, where `rows = data.length / row_stride` — the
raw filtered stream, with no compression anywhere. -/
theorem get_compressed_size_eq (f : Filter) (data : List Nat) (s pb : Nat)
    (hs : 1 ≤ s) (hpb : pb ≤ s) (hdvd : s ∣ data.length)
    (hlen : s ≤ data.length) :
    get_compressed_size f data s pb = .ok (data.length / s * (1 + s)) := by
  have hne : data ≠ [] := by
    intro h
    rw [h] at hlen
    simp at hlen
    omega
  have hcount : (chunks s data).length = data.length / s :=
    chunks_count_of_dvd s hs data hdvd
  cases f with
  | None =>
    rw [get_compressed_size, Filter.apply, filter_none_ok data s hs, RunResult.map]
    congr 1
    rw [flatten_rows_length s _ ?_]
    · rw [List.length_map, hcount]
    · intro r hr
      obtain ⟨line, hline, rfl⟩ := List.mem_map.mp hr
      have := chunks_length_eq_of_dvd s hs data hdvd line hline
      simp [this, Nat.add_comm]
  | Sub =>
    rw [get_compressed_size, Filter.apply, filter_sub_ok data s pb hs hpb hdvd,
      RunResult.map]
    congr 1
    rw [flatten_rows_length s _ ?_]
    · rw [List.length_map, hcount]
    · intro r hr
      obtain ⟨line, hline, rfl⟩ := List.mem_map.mp hr
      simp [subRow_length, Nat.add_comm]
  | Up =>
    obtain ⟨l0, rest, hrows, hok⟩ := filter_up_ok data s hs hdvd hne
    rw [get_compressed_size, Filter.apply, hok, RunResult.map]
    congr 1
    have hl0 : l0.length = s := by
      refine chunks_length_eq_of_dvd s hs data hdvd l0 ?_
      rw [hrows]; exact List.mem_cons_self _ _
    rw [List.length_append, List.length_cons, hl0,
      flatten_rows_length s _ ?_, List.length_map, zip_tail_length, ← hcount, hrows]
    · simp only [List.length_cons]; ring
    · intro r hr
      obtain ⟨p, _, rfl⟩ := List.mem_map.mp hr
      simp [upRow_length, Nat.add_comm]
  | Average =>
    obtain ⟨l0, rest, hrows, hok⟩ := filter_average_ok data s pb hs hpb hdvd hne
    rw [get_compressed_size, Filter.apply, hok, RunResult.map]
    congr 1
    rw [List.length_append, List.length_cons, avgRow0_length,
      flatten_rows_length s _ ?_, List.length_map, zip_tail_length, ← hcount, hrows]
    · simp only [List.length_cons]; ring
    · intro r hr
      obtain ⟨p, _, rfl⟩ := List.mem_map.mp hr
      simp [avgRow_length, Nat.add_comm]
  | Paeth =>
    obtain ⟨l0, rest, hrows, hok⟩ := filter_paeth_ok data s pb hs hpb hdvd hne
    rw [get_compressed_size, Filter.apply, hok, RunResult.map]
    congr 1
    rw [List.length_append, List.length_cons, paethRow0_length,
      flatten_rows_length s _ ?_, List.length_map, zip_tail_length, ← hcount, hrows]
    · simp only [List.length_cons]; ring
    · intro r hr
      obtain ⟨p, _, rfl⟩ := List.mem_map.mp hr
      simp [paethRow_length, Nat.add_comm]

/-! ## The sampled scanlines keep complete rows -/

theorem tiny_dvd_le (data : List Nat) (s : Nat) (hs : 1 ≤ s)
    (hdvd : s ∣ data.length) (hlen : s ≤ data.length) :
    s ∣ (tiny_image_data data s).length ∧
      s ≤ (tiny_image_data data s).length := by
  have hml : data.length / s * s ≤ data.length := Nat.div_mul_le_self _ _
  unfold tiny_image_data
  by_cases hgt : 50 < data.length / s
  · rw [if_pos hgt]
    have h51 : 51 * s ≤ data.length := by
      rw [← Nat.le_div_iff_mul_le (by omega)]
      omega
    have hms : max (s * 10) (data.length / s / 2 * s) ≤ data.length := by
      apply Nat.max_le.mpr
      constructor
      · omega
      · calc data.length / s / 2 * s ≤ data.length / s * s :=
            Nat.mul_le_mul_right s (Nat.div_le_self _ _)
          _ ≤ data.length := hml
    have hmsd : s ∣ max (s * 10) (data.length / s / 2 * s) := by
      rcases max_choice (s * 10) (data.length / s / 2 * s) with h | h <;> rw [h]
      · exact ⟨10, rfl⟩
      · exact Dvd.intro_left _ rfl
    have hmed : s ∣ min (max (s * 10) (data.length / s / 2 * s) + 10 * s)
        data.length := by
      rcases min_choice (max (s * 10) (data.length / s / 2 * s) + 10 * s)
        data.length with h | h <;> rw [h]
      · exact Nat.dvd_add hmsd ⟨10, by ring⟩
      · exact hdvd
    have hme : min (max (s * 10) (data.length / s / 2 * s) + 10 * s)
        data.length ≤ data.length := Nat.min_le_right _ _
    have hbsd : s ∣ max (min (max (s * 10) (data.length / s / 2 * s) + 10 * s)
        data.length) ((max (data.length / s) 10 - 10) * s) := by
      rcases max_choice (min (max (s * 10) (data.length / s / 2 * s) + 10 * s)
        data.length) ((max (data.length / s) 10 - 10) * s) with h | h <;> rw [h]
      · exact hmed
      · exact Dvd.intro_left _ rfl
    have hbs : max (min (max (s * 10) (data.length / s / 2 * s) + 10 * s)
        data.length) ((max (data.length / s) 10 - 10) * s) ≤ data.length := by
      apply Nat.max_le.mpr
      refine ⟨hme, ?_⟩
      have : max (data.length / s) 10 = data.length / s := by
        apply Nat.max_eq_left
        omega
      rw [this]
      calc (data.length / s - 10) * s ≤ data.length / s * s :=
          Nat.mul_le_mul_right s (by omega)
        _ ≤ data.length := hml
    simp only [List.length_append, List.length_take, List.length_drop]
    have hms' : min (s * 10) data.length = s * 10 := Nat.min_eq_left (by omega)
    rw [hms']
    have hmid : min (min (max (s * 10) (data.length / s / 2 * s) + 10 * s)
          data.length - max (s * 10) (data.length / s / 2 * s))
        (data.length - max (s * 10) (data.length / s / 2 * s)) =
        min (max (s * 10) (data.length / s / 2 * s) + 10 * s)
          data.length - max (s * 10) (data.length / s / 2 * s) := by
      apply Nat.min_eq_left
      omega
    rw [hmid]
    constructor
    · refine Nat.dvd_add (Nat.dvd_add ⟨10, rfl⟩ (Nat.dvd_sub' hmed hmsd))
        (Nat.dvd_sub' hdvd hbsd)
    · omega
  · rw [if_neg hgt]
    have hlines1 : 1 ≤ data.length / s := by
      rw [Nat.le_div_iff_mul_le (by omega)]
      omega
    have hmin : min 10 (data.length / s) * s ≤ data.length := by
      calc min 10 (data.length / s) * s ≤ data.length / s * s :=
          Nat.mul_le_mul_right s (Nat.min_le_right _ _)
        _ ≤ data.length := hml
    simp only [List.length_take]
    rw [Nat.min_eq_left hmin]
    constructor
    · exact Dvd.intro_left _ rfl
    · have : 1 ≤ min 10 (data.length / s) := by
        apply Nat.le_min.mpr
        exact ⟨by omega, hlines1⟩
      calc s = 1 * s := (Nat.one_mul s).symm
        _ ≤ min 10 (data.length / s) * s := Nat.mul_le_mul_right s this

/-- On an image with at least one complete row, `pixel_bytes ≤ row_stride`
and no partial trailing row, the inference loop records the same
(uncompressed, filtered) size for all five filters and `max_by_key`
resolves the tie to the LAST enumerated filter: Paeth. -/
theorem infer_best_filter_eq (data : List Nat) (s pb : Nat) (hs : 1 ≤ s)
    (hpb : pb ≤ s) (hdvd : s ∣ data.length) (hlen : s ≤ data.length) :
    infer_best_filter data s pb = .ok .Paeth ∧
      ∀ f, get_compressed_size f (tiny_image_data data s) s pb =
        .ok ((tiny_image_data data s).length / s * (1 + s)) := by
  obtain ⟨htd, htl⟩ := tiny_dvd_le data s hs hdvd hlen
  have hg : ∀ f, get_compressed_size f (tiny_image_data data s) s pb =
      .ok ((tiny_image_data data s).length / s * (1 + s)) :=
    fun f => get_compressed_size_eq f _ s pb hs hpb htd htl
  refine ⟨?_, hg⟩
  unfold infer_best_filter
  rw [if_neg (by omega)]
  simp only [allFilters, inferResults, hg, maxBySnd, List.foldl, le_refl, if_true]

/-! ## Normal forms of the chunk-committing operations -/

/-- The 26-byte fcTL payload as a function of the state and frame. -/
def fcTLdata (meta : Meta) (seq : Nat) (frame : Option Frame) : List Nat :=
  let rect := compute_rect meta frame
  let delay := (frame.bind Frame.delay).getD ⟨0, 0⟩
  let dispose := ((frame.bind Frame.dispose_operator).getD .None).toNat
  let blend := ((frame.bind Frame.blend_operator).getD .Source).toNat
  be32 seq ++ be32 rect.width ++ be32 rect.height ++ be32 rect.x ++
    be32 rect.y ++ be16 delay.numerator ++ be16 delay.denominator ++
    [dispose, blend]

theorem write_frame_control_eq (st : EncState) (frame : Option Frame) :
    write_frame_control st frame = (compute_rect st.meta frame,
      { st with
          sequence := st.sequence + 1,
                chunks := st.chunks ++
                  [⟨typeFcTL, fcTLdata st.meta st.sequence frame⟩] }) := rfl

/-- Case analysis of `write_animation_frame`: one fcTL is always committed
and two sequence numbers are always consumed; the fdAT only on success. -/
theorem write_animation_frame_spec (zlib : List Nat → List Nat)
    (st : EncState) (d : List Nat) (rs : Option Nat) (fr : Option Frame)
    (fil : Option Filter) :
    (∃ idata, write_animation_frame zlib st d rs fr fil = (.ok (),
        { st with
          sequence := st.sequence + 2,
          chunks := st.chunks ++ [⟨typeFcTL, fcTLdata st.meta st.sequence fr⟩,
            ⟨typeFdAT, be32 (st.sequence + 1) ++ idata⟩] })) ∨
    ((write_animation_frame zlib st d rs fr fil).1 ≠ .ok () ∧
      (write_animation_frame zlib st d rs fr fil).2 =
        { st with
          sequence := st.sequence + 2,
          chunks := st.chunks ++
            [⟨typeFcTL, fcTLdata st.meta st.sequence fr⟩] }) := by
  unfold write_animation_frame
  rw [write_frame_control_eq]
  simp only [next_sequence]
  cases hmk : make_image_data zlib st.meta d rs (compute_rect st.meta fr) fil with
  | ok idata =>
    left
    exact ⟨idata, by simp [appendChunk]⟩
  | err e => right; simp
  | panic => right; simp

/-- Case analysis of `write_animation_frame_with_default`. -/
theorem write_animation_frame_with_default_spec (zlib : List Nat → List Nat)
    (st : EncState) (d : List Nat) (rs : Option Nat) (fr : Option Frame)
    (fil : Option Filter) :
    (∃ idata, write_animation_frame_with_default zlib st d rs fr fil = (.ok (),
        { st with
          sequence := st.sequence + 1,
          chunks := st.chunks ++ [⟨typeFcTL, fcTLdata st.meta st.sequence fr⟩,
            ⟨typeIDAT, idata⟩] })) ∨
    ((write_animation_frame_with_default zlib st d rs fr fil).1 ≠ .ok () ∧
      (write_animation_frame_with_default zlib st d rs fr fil).2 =
        { st with
          sequence := st.sequence + 1,
          chunks := st.chunks ++
            [⟨typeFcTL, fcTLdata st.meta st.sequence fr⟩] }) := by
  unfold write_animation_frame_with_default
  rw [write_frame_control_eq]
  by_cases hmod : (compute_rect st.meta fr).modified
  · right
    simp [hmod]
  · cases hmk : make_image_data zlib st.meta d rs (compute_rect st.meta fr) fil with
    | ok idata =>
      left
      refine ⟨idata, ?_⟩
      simp [hmod, hmk, appendChunk]
    | err e => right; simp [hmod, hmk]
    | panic => right; simp [hmod, hmk]

/-- Case analysis of `write_default_image`: never consumes a sequence
number; commits one IDAT exactly on success. -/
theorem write_default_image_spec (zlib : List Nat → List Nat)
    (st : EncState) (d : List Nat) (fil : Option Filter) (rs : Option Nat) :
    (st.default_image = true ∧
      write_default_image zlib st d fil rs = (.err .MulitiDefaultImage, st)) ∨
    (st.default_image = false ∧ 0 < st.sequence ∧
      write_default_image zlib st d fil rs = (.err .DefaultImageNotAtFirst, st)) ∨
    (st.default_image = false ∧ st.sequence = 0 ∧
      ((∃ idata, write_default_image zlib st d fil rs = (.ok (),
          { st with
            default_image := true,
            chunks := st.chunks ++ [⟨typeIDAT, idata⟩] })) ∨
        ((write_default_image zlib st d fil rs).1 ≠ .ok () ∧
          (write_default_image zlib st d fil rs).2 =
            { st with default_image := true }))) := by
  unfold write_default_image
  by_cases hdef : st.default_image
  · left
    exact ⟨hdef, by simp [hdef]⟩
  · by_cases hseq : 0 < st.sequence
    · right; left
      refine ⟨by simp [hdef], hseq, ?_⟩
      simp [hdef, hseq]
    · right; right
      refine ⟨by simp [hdef], by omega, ?_⟩
      cases hmk : make_image_data zlib
          { st with default_image := true }.meta d rs
          (compute_rect { st with default_image := true }.meta Option.none) fil with
      | ok idata =>
        left
        refine ⟨idata, ?_⟩
        simp [hdef, hseq, hmk, appendChunk]
      | err e => right; simp [hdef, hseq, hmk]
      | panic => right; simp [hdef, hseq, hmk]

/-- Case analysis of `write_frame`, combining the `TooManyFrames` gate with
the two animation paths. -/
theorem write_frame_spec (zlib : List Nat → List Nat) (st : EncState)
    (d : List Nat) (fr : Option Frame) (fil : Option Filter)
    (rs : Option Nat) :
    (st.meta.frames < st.written_frames + 1 ∧
      write_frame zlib st d fr fil rs =
        (.err (.TooManyFrames st.meta.frames (st.written_frames + 1)),
          { st with written_frames := st.written_frames + 1 })) ∨
    (st.written_frames + 1 ≤ st.meta.frames ∧
      st.default_image = false ∧ st.sequence = 0 ∧
      ((∃ idata, write_frame zlib st d fr fil rs = (.ok (),
          { st with
            written_frames := st.written_frames + 1,
            sequence := st.sequence + 1,
            chunks := st.chunks ++ [⟨typeFcTL, fcTLdata st.meta st.sequence fr⟩,
              ⟨typeIDAT, idata⟩] })) ∨
        ((write_frame zlib st d fr fil rs).1 ≠ .ok () ∧
          (write_frame zlib st d fr fil rs).2 =
            { st with
              written_frames := st.written_frames + 1,
              sequence := st.sequence + 1,
              chunks := st.chunks ++
                [⟨typeFcTL, fcTLdata st.meta st.sequence fr⟩] }))) ∨
    (st.written_frames + 1 ≤ st.meta.frames ∧
      (st.default_image = true ∨ 0 < st.sequence) ∧
      ((∃ idata, write_frame zlib st d fr fil rs = (.ok (),
          { st with
            written_frames := st.written_frames + 1,
            sequence := st.sequence + 2,
            chunks := st.chunks ++ [⟨typeFcTL, fcTLdata st.meta st.sequence fr⟩,
              ⟨typeFdAT, be32 (st.sequence + 1) ++ idata⟩] })) ∨
        ((write_frame zlib st d fr fil rs).1 ≠ .ok () ∧
          (write_frame zlib st d fr fil rs).2 =
            { st with
              written_frames := st.written_frames + 1,
              sequence := st.sequence + 2,
              chunks := st.chunks ++
                [⟨typeFcTL, fcTLdata st.meta st.sequence fr⟩] }))) := by
  unfold write_frame
  by_cases htm : st.meta.frames < st.written_frames + 1
  · left
    refine ⟨htm, ?_⟩
    rw [if_pos htm]
  · rw [if_neg htm]
    by_cases hcond : st.default_image = false ∧ st.sequence = 0
    · right; left
      refine ⟨by omega, hcond.1, hcond.2, ?_⟩
      have hb : (!({ st with written_frames := st.written_frames + 1
          } : EncState).default_image &&
          ({ st with written_frames := st.written_frames + 1
          } : EncState).sequence == 0) = true := by
        simp [hcond.1, hcond.2]
      rw [if_pos hb]
      rcases write_animation_frame_with_default_spec zlib
          { st with written_frames := st.written_frames + 1 } d rs fr fil with
        ⟨idata, heq⟩ | ⟨hne, heq⟩
      · exact Or.inl ⟨idata, heq⟩
      · exact Or.inr ⟨hne, heq⟩
    · right; right
      have hor : st.default_image = true ∨ 0 < st.sequence := by
        rcases Bool.eq_false_or_eq_true st.default_image with h | h
        · exact Or.inl h
        · refine Or.inr ?_
          rcases Nat.eq_zero_or_pos st.sequence with h0 | h1
          · exact absurd ⟨h, h0⟩ hcond
          · exact h1
      refine ⟨by omega, hor, ?_⟩
      have hb : (!({ st with written_frames := st.written_frames + 1
          } : EncState).default_image &&
          ({ st with written_frames := st.written_frames + 1
          } : EncState).sequence == 0) = false := by
        rcases hor with h | h
        · simp [h]
        · simp
          intro _
          omega
      rw [if_neg (by rw [hb]; exact Bool.false_ne_true)]
      rcases write_animation_frame_spec zlib
          { st with written_frames := st.written_frames + 1 } d rs fr fil with
        ⟨idata, heq⟩ | ⟨hne, heq⟩
      · exact Or.inl ⟨idata, heq⟩
      · exact Or.inr ⟨hne, heq⟩

/-! ## Sequence fields embedded in the committed fcTL/fdAT chunks -/

/-- The 4-byte sequence field at the head of every `fcTL` and `fdAT`
payload, read back in emission order. -/
def seqFields (cs : List Chunk) : List Nat :=
  cs.filterMap fun c =>
    if c.ctype = typeFcTL ∨ c.ctype = typeFdAT then
      some (decodeBe32 (c.cdata.take 4))
    else
      Option.none

theorem seqFields_append (a b : List Chunk) :
    seqFields (a ++ b) = seqFields a ++ seqFields b := by
  simp [seqFields, List.filterMap_append]

theorem seqFields_seq_chunk (t : List Nat) (dta : List Nat)
    (ht : t = typeFcTL ∨ t = typeFdAT) :
    seqFields [⟨t, dta⟩] = [decodeBe32 (dta.take 4)] := by
  simp only [seqFields, List.filterMap]
  rw [if_pos ht]

theorem seqFields_other_chunk (t : List Nat) (dta : List Nat)
    (ht : ¬(t = typeFcTL ∨ t = typeFdAT)) :
    seqFields [⟨t, dta⟩] = [] := by
  simp only [seqFields, List.filterMap]
  rw [if_neg ht]

theorem take4_be32_append (n : Nat) (r : List Nat) :
    (be32 n ++ r).take 4 = be32 n := by
  simp [be32]

theorem decodeBe32_be32 (n : Nat) : decodeBe32 (be32 n) = n % 2 ^ 32 := by
  simp only [decodeBe32, be32, List.getD]
  show (((n / 2 ^ 24 % 256) * 256 + n / 2 ^ 16 % 256) * 256 + n / 2 ^ 8 % 256) *
      256 + n % 256 = n % 2 ^ 32
  omega

/-- The sequence field committed by an fcTL built at counter value `seq`. -/
theorem seqFields_fcTL (meta : Meta) (seq : Nat) (fr : Option Frame) :
    seqFields [⟨typeFcTL, fcTLdata meta seq fr⟩] = [seq % 2 ^ 32] := by
  rw [seqFields_seq_chunk _ _ (Or.inl rfl)]
  unfold fcTLdata
  simp only [List.append_assoc]
  rw [take4_be32_append, decodeBe32_be32]

/-- The sequence field committed by an fdAT whose payload starts with the
counter value `seq`. -/
theorem seqFields_fdAT (seq : Nat) (idata : List Nat) :
    seqFields [⟨typeFdAT, be32 seq ++ idata⟩] = [seq % 2 ^ 32] := by
  rw [seqFields_seq_chunk _ _ (Or.inr rfl), take4_be32_append, decodeBe32_be32]

theorem seqFields_IDAT (idata : List Nat) :
    seqFields [⟨typeIDAT, idata⟩] = [] := by
  apply seqFields_other_chunk
  intro h
  rcases h with h | h <;> simp [typeIDAT, typeFcTL, typeFdAT] at h

theorem seqFields_pair (c1 c2 : Chunk) :
    seqFields [c1, c2] = seqFields [c1] ++ seqFields [c2] :=
  seqFields_append [c1] [c2]

/-! ## Run invariants -/

/-- The embedded sequence fields are exactly `0, 1, …, sequence - 1`
(truncated to u32 on the wire). -/
def SeqInv (st : EncState) : Prop :=
  seqFields st.chunks = (List.range st.sequence).map (· % 2 ^ 32)

/-- `written_frames` within the declared bound. -/
def FramesInv (st : EncState) : Prop :=
  st.written_frames ≤ st.meta.frames

/-- Every committed chunk has a 4-byte type. -/
def TypeInv (st : EncState) : Prop :=
  ∀ c ∈ st.chunks, c.ctype.length = 4

theorem stepOp_ok_seqInv (zlib : List Nat → List Nat) (st : EncState)
    (op : Op) (st' : EncState) (h : stepOp zlib st op = (.ok (), st'))
    (hinv : SeqInv st) : SeqInv st' := by
  cases op with
  | writeFrame d fr fil rs =>
    simp only [stepOp] at h
    rcases write_frame_spec zlib st d fr fil rs with
      ⟨_, heq⟩ | ⟨_, _, _, (⟨idata, heq⟩ | ⟨hne, _⟩)⟩ |
      ⟨_, _, (⟨idata, heq⟩ | ⟨hne, _⟩)⟩
    · rw [heq] at h
      exact absurd (congrArg Prod.fst h) (by simp)
    · rw [heq] at h
      have hst : st' = _ := (congrArg Prod.snd h).symm
      rw [hst]
      unfold SeqInv at hinv ⊢
      simp only
      rw [seqFields_append, seqFields_pair, seqFields_fcTL, seqFields_IDAT,
        hinv, List.range_succ, List.map_append]
      simp
    · exact absurd (congrArg Prod.fst h) hne
    · rw [heq] at h
      have hst : st' = _ := (congrArg Prod.snd h).symm
      rw [hst]
      unfold SeqInv at hinv ⊢
      simp only
      rw [seqFields_append, seqFields_pair, seqFields_fcTL, seqFields_fdAT,
        hinv, List.range_succ, List.range_succ, List.map_append, List.map_append]
      simp
    · exact absurd (congrArg Prod.fst h) hne
  | writeDefaultImage d fil rs =>
    simp only [stepOp] at h
    rcases write_default_image_spec zlib st d fil rs with
      ⟨_, heq⟩ | ⟨_, _, heq⟩ | ⟨_, _, (⟨idata, heq⟩ | ⟨hne, _⟩)⟩
    · rw [heq] at h
      exact absurd (congrArg Prod.fst h) (by simp)
    · rw [heq] at h
      exact absurd (congrArg Prod.fst h) (by simp)
    · rw [heq] at h
      have hst : st' = _ := (congrArg Prod.snd h).symm
      rw [hst]
      unfold SeqInv at hinv ⊢
      simp only
      rw [seqFields_append, seqFields_IDAT, hinv]
      simp
    · exact absurd (congrArg Prod.fst h) hne

theorem stepOp_ok_framesInv (zlib : List Nat → List Nat) (st : EncState)
    (op : Op) (st' : EncState) (h : stepOp zlib st op = (.ok (), st'))
    (hinv : FramesInv st) : FramesInv st' := by
  cases op with
  | writeFrame d fr fil rs =>
    simp only [stepOp] at h
    rcases write_frame_spec zlib st d fr fil rs with
      ⟨_, heq⟩ | ⟨hle, _, _, (⟨idata, heq⟩ | ⟨hne, _⟩)⟩ |
      ⟨hle, _, (⟨idata, heq⟩ | ⟨hne, _⟩)⟩
    · rw [heq] at h
      exact absurd (congrArg Prod.fst h) (by simp)
    · rw [heq] at h
      have hst : st' = _ := (congrArg Prod.snd h).symm
      rw [hst]
      exact hle
    · exact absurd (congrArg Prod.fst h) hne
    · rw [heq] at h
      have hst : st' = _ := (congrArg Prod.snd h).symm
      rw [hst]
      exact hle
    · exact absurd (congrArg Prod.fst h) hne
  | writeDefaultImage d fil rs =>
    simp only [stepOp] at h
    rcases write_default_image_spec zlib st d fil rs with
      ⟨_, heq⟩ | ⟨_, _, heq⟩ | ⟨_, _, (⟨idata, heq⟩ | ⟨hne, _⟩)⟩
    · rw [heq] at h
      exact absurd (congrArg Prod.fst h) (by simp)
    · rw [heq] at h
      exact absurd (congrArg Prod.fst h) (by simp)
    · rw [heq] at h
      have hst : st' = _ := (congrArg Prod.snd h).symm
      rw [hst]
      exact hinv
    · exact absurd (congrArg Prod.fst h) hne

theorem stepOp_typeInv (zlib : List Nat → List Nat) (st : EncState) (op : Op)
    (hinv : TypeInv st) : TypeInv (stepOp zlib st op).2 := by
  have hfour : ∀ c : Chunk, (c.ctype = typeFcTL ∨ c.ctype = typeFdAT ∨
      c.ctype = typeIDAT) → c.ctype.length = 4 := by
    intro c hc
    rcases hc with h | h | h <;> rw [h] <;> rfl
  cases op with
  | writeFrame d fr fil rs =>
    simp only [stepOp]
    rcases write_frame_spec zlib st d fr fil rs with
      ⟨_, heq⟩ | ⟨_, _, _, (⟨idata, heq⟩ | ⟨hne, heq⟩)⟩ |
      ⟨_, _, (⟨idata, heq⟩ | ⟨hne, heq⟩)⟩
    · rw [heq]
      intro c hc
      exact hinv c hc
    · rw [heq]
      intro c hc
      simp only [List.mem_append] at hc
      rcases hc with hc | hc
      · exact hinv c hc
      · rcases List.mem_cons.mp hc with h | h
        · rw [h]; rfl
        · rw [List.mem_singleton.mp h]; rfl
    · intro c hc
      rw [heq] at hc
      simp only [List.mem_append] at hc
      rcases hc with hc | hc
      · exact hinv c hc
      · rw [List.mem_singleton.mp hc]; rfl
    · rw [heq]
      intro c hc
      simp only [List.mem_append] at hc
      rcases hc with hc | hc
      · exact hinv c hc
      · rcases List.mem_cons.mp hc with h | h
        · rw [h]; rfl
        · rw [List.mem_singleton.mp h]; rfl
    · intro c hc
      rw [heq] at hc
      simp only [List.mem_append] at hc
      rcases hc with hc | hc
      · exact hinv c hc
      · rw [List.mem_singleton.mp hc]; rfl
  | writeDefaultImage d fil rs =>
    simp only [stepOp]
    rcases write_default_image_spec zlib st d fil rs with
      ⟨_, heq⟩ | ⟨_, _, heq⟩ | ⟨_, _, (⟨idata, heq⟩ | ⟨hne, heq⟩)⟩
    · rw [heq]
      exact hinv
    · rw [heq]
      exact hinv
    · rw [heq]
      intro c hc
      simp only [List.mem_append] at hc
      rcases hc with hc | hc
      · exact hinv c hc
      · rw [List.mem_singleton.mp hc]; rfl
    · intro c hc
      rw [heq] at hc
      exact hinv c hc

theorem stepOp_meta (zlib : List Nat → List Nat) (st : EncState) (op : Op) :
    (stepOp zlib st op).2.meta = st.meta := by
  cases op with
  | writeFrame d fr fil rs =>
    simp only [stepOp]
    rcases write_frame_spec zlib st d fr fil rs with
      ⟨_, heq⟩ | ⟨_, _, _, (⟨idata, heq⟩ | ⟨hne, heq⟩)⟩ |
      ⟨_, _, (⟨idata, heq⟩ | ⟨hne, heq⟩)⟩ <;> rw [heq]
  | writeDefaultImage d fil rs =>
    simp only [stepOp]
    rcases write_default_image_spec zlib st d fil rs with
      ⟨_, heq⟩ | ⟨_, _, heq⟩ | ⟨_, _, (⟨idata, heq⟩ | ⟨hne, heq⟩)⟩ <;> rw [heq]

/-- Invariant propagation along a fully successful trace. -/
theorem runTrace_ok_inv (zlib : List Nat → List Nat) (P : EncState → Prop)
    (hstep : ∀ st op st', stepOp zlib st op = (.ok (), st') → P st → P st') :
    ∀ (ops : List Op) (st : EncState), P st →
      (∀ r ∈ (runTrace zlib st ops).1, r.isOk) →
      P (runTrace zlib st ops).2 := by
  intro ops
  induction ops with
  | nil => intro st hP _; exact hP
  | cons op ops ih =>
    intro st hP hok
    simp only [runTrace] at hok ⊢
    cases hso : stepOp zlib st op with
    | mk r st1 =>
      rw [hso] at hok
      cases r with
      | ok a =>
        simp only at hok ⊢
        refine ih st1 (hstep st op st1 (by rw [hso]) hP) ?_
        intro r hr
        exact hok r (List.mem_cons_of_mem _ hr)
      | err e =>
        exact absurd (hok (.err e) (by simp)) (by simp [RunResult.isOk])
      | panic =>
        exact absurd (hok .panic (by simp)) (by simp [RunResult.isOk])

/-- A fully successful trace has fully successful prefixes. -/
theorem runTrace_take_ok (zlib : List Nat → List Nat) :
    ∀ (ops : List Op) (st : EncState),
      (∀ r ∈ (runTrace zlib st ops).1, r.isOk) → ∀ (n : Nat),
      ∀ r ∈ (runTrace zlib st (ops.take n)).1, r.isOk := by
  intro ops
  induction ops with
  | nil =>
    intro st _ n
    simp [runTrace]
  | cons op ops ih =>
    intro st hok n
    match n with
    | 0 => simp [runTrace]
    | n + 1 =>
      simp only [List.take, runTrace] at hok ⊢
      cases hso : stepOp zlib st op with
      | mk r st1 =>
        rw [hso] at hok
        cases r with
        | ok a =>
          simp only at hok ⊢
          intro r hr
          rcases List.mem_cons.mp hr with h | h
          · rw [h]; rfl
          · exact ih st1 (fun r hr => hok r (List.mem_cons_of_mem _ hr)) n r h
        | err e =>
          exact absurd (hok (.err e) (by simp)) (by simp [RunResult.isOk])
        | panic =>
          exact absurd (hok .panic (by simp)) (by simp [RunResult.isOk])

/-- Case analysis of `finish`. -/
theorem finish_spec (st : EncState) :
    (st.meta.frames ≤ st.written_frames ∧
      finish st = (.ok (), appendChunk st ⟨typeIEND, []⟩)) ∨
    (st.written_frames < st.meta.frames ∧
      finish st = (.err (.NotEnoughFrames st.meta.frames st.written_frames), st)) := by
  unfold finish
  by_cases h : st.written_frames < st.meta.frames
  · right
    exact ⟨h, by rw [if_pos h]⟩
  · left
    exact ⟨by omega, by rw [if_neg h]⟩

theorem runTrace_meta (zlib : List Nat → List Nat) :
    ∀ (ops : List Op) (st : EncState),
      (runTrace zlib st ops).2.meta = st.meta := by
  intro ops
  induction ops with
  | nil => intro st; rfl
  | cons op ops ih =>
    intro st
    simp only [runTrace]
    cases hso : stepOp zlib st op with
    | mk r st1 =>
      have hm : st1.meta = st.meta := by
        have := stepOp_meta zlib st op
        rw [hso] at this
        exact this
      cases r with
      | ok a => simp only; rw [ih st1, hm]
      | err e => simp only; rw [ih st1, hm]
      | panic => exact hm

/-- A spec-side reading of claim C2 ("records the length of the compressed
output of the sample"): the length the compressor would give for the
filtered sample.  The source's `get_compressed_size` never invokes the
compressor, so the two differ for any non-length-preserving `zlib`. -/
def compressed_sample_size (zlib : List Nat → List Nat) (filter : Filter)
    (image_data : List Nat) (row_stride pixel_bytes : Nat) : RunResult Nat :=
  (filter.apply image_data row_stride pixel_bytes).map fun o => (zlib o).length

/-! ## Concrete fixtures for counterexamples and witnesses -/

/-- A 2×2 RGB-8 canvas declaring `frames` animation frames. -/
def metaRGB (frames : Nat) : Meta :=
  { color := .RGB 8, frames := frames, height := 2, plays := Option.none,
    width := 2 }

/-- A 1×1 grayscale-8 canvas declaring `frames` animation frames. -/
def metaGray (frames : Nat) : Meta :=
  { color := .Grayscale 8, frames := frames, height := 1,
    plays := Option.none, width := 1 }

/-- A full 2×2 RGB-8 pixel buffer (12 bytes). -/
def fourPix : List Nat :=
  [0xFF, 0, 0, 0, 0xFF, 0, 0, 0, 0, 0, 0, 0xFF]

/-! ## Claim theorems -/

/-- C10: `write_frame` and `write_default_image` panic rather than return an
`Error` on degenerate zero-sized geometry: an explicit `row_stride` of 0, or
a frame width of 0 under the default stride, divides by zero in the
buffer-size check; and a zero-height frame with an empty buffer passes the
rectangle/size validation (`compute_row_stride` returns ok) and then panics
when the Up, Average or Paeth filter indexes the first row of the empty row
list. -/
theorem C10_zero_geometry_panics :
    (write_frame id (initState (metaRGB 1)) fourPix Option.none Option.none
      (some 0)).1 = .panic ∧
    (runTrace id (initState (metaRGB 2))
      [.writeFrame fourPix Option.none (some .None) Option.none,
       .writeFrame [] (some { width := some 0 }) Option.none Option.none]).1 =
      [.ok (), .panic] ∧
    compute_row_stride (metaRGB 2) [] Option.none
      (compute_rect (metaRGB 2) (some { height := some 0 })) = .ok 6 ∧
    (runTrace id (initState (metaRGB 2))
      [.writeFrame fourPix Option.none (some .None) Option.none,
       .writeFrame [] (some { height := some 0 }) (some .Up) Option.none]).1 =
      [.ok (), .panic] ∧
    (runTrace id (initState (metaRGB 2))
      [.writeFrame fourPix Option.none (some .None) Option.none,
       .writeFrame [] (some { height := some 0 }) (some .Average) Option.none]).1 =
      [.ok (), .panic] ∧
    (runTrace id (initState (metaRGB 2))
      [.writeFrame fourPix Option.none (some .None) Option.none,
       .writeFrame [] (some { height := some 0 }) (some .Paeth) Option.none]).1 =
      [.ok (), .panic] ∧
    (write_default_image id (initState
      { color := .Grayscale 8, frames := 1, height := 0,
        plays := Option.none, width := 1 }) [] (some .Up) Option.none).1 =
      .panic := by
  decide

/-- C1 counterexample: a `write_frame` call rejected by buffer-size
validation (`TooSmallImage`) has already committed bytes to the sink — the
byte stream strictly grows across the failing call. -/
theorem C1_cex_bytes_written_on_validation_error :
    (write_frame id (initState (metaRGB 1)) [0] Option.none Option.none
      Option.none).1 = .err .TooSmallImage ∧
    (sinkBytes (initState (metaRGB 1))).length <
      (sinkBytes (write_frame id (initState (metaRGB 1)) [0] Option.none
        Option.none Option.none).2).length := by
  decide

/-- C1 (amended): when `write_frame` fails with `TooLargeImage`,
`TooSmallImage` or `InvalidDefaultImageRectangle`, the call has committed
exactly one chunk — the `fcTL` — before the validation error; no image-data
chunk (`IDAT`/`fdAT`) bytes are written by the failing call. -/
theorem C1_validation_error_commits_exactly_fcTL (zlib : List Nat → List Nat)
    (st : EncState) (d : List Nat) (fr : Option Frame) (fil : Option Filter)
    (rs : Option Nat) (e : ApngError)
    (h : (write_frame zlib st d fr fil rs).1 = .err e)
    (he : e = .TooLargeImage ∨ e = .TooSmallImage ∨
      e = .InvalidDefaultImageRectangle) :
    ∃ fd, (write_frame zlib st d fr fil rs).2.chunks =
      st.chunks ++ [⟨typeFcTL, fd⟩] := by
  rcases write_frame_spec zlib st d fr fil rs with
    ⟨_, heq⟩ | ⟨_, _, _, (⟨idata, heq⟩ | ⟨hne, heq⟩)⟩ |
    ⟨_, _, (⟨idata, heq⟩ | ⟨hne, heq⟩)⟩
  · rw [heq] at h
    simp only at h
    have : e = .TooManyFrames st.meta.frames (st.written_frames + 1) := by
      cases h
      rfl
    rcases he with rfl | rfl | rfl <;> simp at this
  · rw [heq] at h
    simp at h
  · exact ⟨fcTLdata st.meta st.sequence fr, by rw [heq]⟩
  · rw [heq] at h
    simp at h
  · exact ⟨fcTLdata st.meta st.sequence fr, by rw [heq]⟩

/-- C1 witness: the amended theorem at the concrete `TooSmallImage` call. -/
theorem C1_witness :
    ∃ fd, (write_frame id (initState (metaRGB 1)) [0] Option.none Option.none
      Option.none).2.chunks = (initState (metaRGB 1)).chunks ++
      [⟨typeFcTL, fd⟩] :=
  C1_validation_error_commits_exactly_fcTL id (initState (metaRGB 1)) [0]
    Option.none Option.none Option.none .TooSmallImage (by decide)
    (Or.inr (Or.inl rfl))

/-- C5 counterexample: `written_frames` exceeds `Meta.frames` after a failed
`write_frame` (the counter is incremented before the `TooManyFrames` check
and stays incremented), and `finish` then succeeds with
`written_frames ≠ Meta.frames`. -/
theorem C5_cex_written_frames_exceeds :
    (runTrace id (initState (metaGray 0))
      [.writeFrame [0] Option.none Option.none Option.none]).1 =
      [.err (.TooManyFrames 0 1)] ∧
    (runTrace id (initState (metaGray 0))
      [.writeFrame [0] Option.none Option.none Option.none]).2.written_frames = 1 ∧
    (metaGray 0).frames = 0 ∧
    (finish (runTrace id (initState (metaGray 0))
      [.writeFrame [0] Option.none Option.none Option.none]).2).1 = .ok () ∧
    (runTrace id (initState (metaGray 0))
      [.writeFrame [0] Option.none Option.none Option.none]).2.written_frames ≠
      (metaGray 0).frames := by
  decide

/-- C5 (amended): along any run in which every operation succeeds,
`written_frames ≤ Meta.frames` holds at every point, and when `finish`
succeeds at the end of such a run, `written_frames = Meta.frames`. -/
theorem C5_frames_invariant (zlib : List Nat → List Nat) (meta : Meta)
    (ops : List Op)
    (hok : ∀ r ∈ (runTrace zlib (initState meta) ops).1, r.isOk) :
    (∀ n, (runTrace zlib (initState meta) (ops.take n)).2.written_frames ≤
      meta.frames) ∧
    ((finish (runTrace zlib (initState meta) ops).2).1 = .ok () →
      (runTrace zlib (initState meta) ops).2.written_frames = meta.frames) := by
  have hstep := stepOp_ok_framesInv zlib
  have hinv0 : FramesInv (initState meta) := by
    unfold FramesInv initState
    simp
  constructor
  · intro n
    have hokn := runTrace_take_ok zlib ops (initState meta) hok n
    have := runTrace_ok_inv zlib FramesInv
      (fun st op st' h hP => stepOp_ok_framesInv zlib st op st' h hP)
      (ops.take n) (initState meta) hinv0 hokn
    unfold FramesInv at this
    rw [runTrace_meta zlib (ops.take n) (initState meta)] at this
    exact this
  · intro hfin
    have hle := runTrace_ok_inv zlib FramesInv
      (fun st op st' h hP => stepOp_ok_framesInv zlib st op st' h hP)
      ops (initState meta) hinv0 hok
    unfold FramesInv at hle
    rw [runTrace_meta zlib ops (initState meta)] at hle
    rcases finish_spec (runTrace zlib (initState meta) ops).2 with
      ⟨hge, _⟩ | ⟨_, heq⟩
    · rw [runTrace_meta zlib ops (initState meta)] at hge
      exact Nat.le_antisymm hle hge
    · rw [heq] at hfin
      simp at hfin

/-- C5 witness: the amended theorem on a concrete one-frame run. -/
theorem C5_witness :
    (∀ n, (runTrace id (initState (metaGray 1))
      (([.writeFrame [0] Option.none Option.none Option.none] :
        List Op).take n)).2.written_frames ≤ (metaGray 1).frames) ∧
    ((finish (runTrace id (initState (metaGray 1))
      [.writeFrame [0] Option.none Option.none Option.none]).2).1 = .ok () →
      (runTrace id (initState (metaGray 1))
        [.writeFrame [0] Option.none Option.none
          Option.none]).2.written_frames = (metaGray 1).frames) :=
  C5_frames_invariant id (metaGray 1)
    [.writeFrame [0] Option.none Option.none Option.none] (by decide)

/-- C8 counterexample: after a successful `write_default_image` and a
`write_frame` (which emits an fcTL), a second `write_default_image` returns
`MulitiDefaultImage`, not `DefaultImageNotAtFirst`, although an fcTL has
been emitted. -/
theorem C8_cex_error_kind_after_fcTL :
    (∃ c ∈ (runTrace id (initState (metaGray 1))
      [.writeDefaultImage [0] Option.none Option.none,
       .writeFrame [0] Option.none Option.none Option.none]).2.chunks,
      c.ctype = typeFcTL) ∧
    0 < (runTrace id (initState (metaGray 1))
      [.writeDefaultImage [0] Option.none Option.none,
       .writeFrame [0] Option.none Option.none Option.none]).2.sequence ∧
    (write_default_image id (runTrace id (initState (metaGray 1))
      [.writeDefaultImage [0] Option.none Option.none,
       .writeFrame [0] Option.none Option.none Option.none]).2
      [0] Option.none Option.none).1 = .err .MulitiDefaultImage ∧
    (RunResult.err (α := Unit) .MulitiDefaultImage ≠
      .err .DefaultImageNotAtFirst) := by
  decide

/-- C8 (amended): `write_default_image` errs with `MulitiDefaultImage`
whenever the default-image flag is already set (in particular after any
previous successful call); it errs with `DefaultImageNotAtFirst` whenever no
default image was recorded but an fcTL has consumed a sequence number; on
success it commits exactly one `IDAT` chunk; and it never consumes a
sequence number. -/
theorem C8_default_image_rules (zlib : List Nat → List Nat) (st : EncState)
    (d : List Nat) (fil : Option Filter) (rs : Option Nat) :
    (st.default_image = true →
      write_default_image zlib st d fil rs = (.err .MulitiDefaultImage, st)) ∧
    (st.default_image = false → 0 < st.sequence →
      write_default_image zlib st d fil rs =
        (.err .DefaultImageNotAtFirst, st)) ∧
    ((write_default_image zlib st d fil rs).1 = .ok () →
      ∃ idata, (write_default_image zlib st d fil rs).2.chunks =
        st.chunks ++ [⟨typeIDAT, idata⟩]) ∧
    (write_default_image zlib st d fil rs).2.sequence = st.sequence := by
  rcases write_default_image_spec zlib st d fil rs with
    ⟨hdef, heq⟩ | ⟨hdef, hseq, heq⟩ | ⟨hdef, hseq, hcase⟩
  · refine ⟨fun _ => heq, fun hf _ => ?_, fun hok => ?_, by rw [heq]⟩
    · rw [hdef] at hf
      cases hf
    · rw [heq] at hok
      simp at hok
  · refine ⟨fun ht => ?_, fun _ _ => heq, fun hok => ?_, by rw [heq]⟩
    · rw [hdef] at ht
      cases ht
    · rw [heq] at hok
      simp at hok
  · rcases hcase with ⟨idata, heq⟩ | ⟨hne, heq⟩
    · refine ⟨fun ht => ?_, fun _ hpos => ?_, fun _ => ⟨idata, by rw [heq]⟩,
        by rw [heq]⟩
      · rw [hdef] at ht
        cases ht
      · omega
    · refine ⟨fun ht => ?_, fun _ hpos => ?_, fun hok => absurd hok hne,
        by rw [heq]⟩
      · rw [hdef] at ht
        cases ht
      · omega

/-- C8 witness: the amended theorem applied at a state whose default-image
flag is set. -/
theorem C8_witness :
    write_default_image id
      { default_image := true, meta := metaGray 1, sequence := 0,
        written_frames := 0, chunks := [] } [] Option.none Option.none =
      (.err .MulitiDefaultImage,
        { default_image := true, meta := metaGray 1, sequence := 0,
          written_frames := 0, chunks := [] }) :=
  (C8_default_image_rules id _ [] Option.none Option.none).1 rfl

/-! ## Parsing the chunk stream back (with CRC verification) -/

theorem crc32Round_lt (c : Nat) (h : c < 2 ^ 32) : crc32Round c < 2 ^ 32 := by
  unfold crc32Round
  split
  · exact Nat.bitwise_lt_two_pow (by omega) (by norm_num)
  · omega

theorem crc32Rounds_lt (k c : Nat) (h : c < 2 ^ 32) :
    crc32Rounds k c < 2 ^ 32 := by
  induction k generalizing c with
  | zero => exact h
  | succ k ih => exact ih _ (crc32Round_lt c h)

theorem crc32_lt (bytes : List Nat) : crc32 bytes < 2 ^ 32 := by
  unfold crc32
  have hfold : ∀ (l : List Nat) (c : Nat), c < 2 ^ 32 →
      l.foldl crc32Update c < 2 ^ 32 := by
    intro l
    induction l with
    | nil => intro c h; exact h
    | cons b l ih =>
      intro c h
      refine ih _ ?_
      unfold crc32Update
      exact crc32Rounds_lt 8 _ (Nat.bitwise_lt_two_pow h (by omega))
  exact Nat.bitwise_lt_two_pow (hfold _ _ (by norm_num)) (by norm_num)

/-- Reader for a stream of `length ‖ type ‖ data ‖ crc` chunks; returns
`none` on truncation or on any CRC-32 mismatch. -/
def parseChunksGo : Nat → List Nat → Option (List Chunk)
  | _, [] => some []
  | 0, _ :: _ => Option.none
  | fuel + 1, b :: bs =>
    let bytes := b :: bs
    let n := decodeBe32 (bytes.take 4)
    if bytes.length < 12 + n then Option.none
    else if decodeBe32 ((bytes.drop (8 + n)).take 4) =
        crc32 ((bytes.drop 4).take 4 ++ (bytes.drop 8).take n) then
      (parseChunksGo fuel (bytes.drop (12 + n))).map
        (fun cs => ⟨(bytes.drop 4).take 4, (bytes.drop 8).take n⟩ :: cs)
    else Option.none

def parseChunks (bytes : List Nat) : Option (List Chunk) :=
  parseChunksGo bytes.length bytes

theorem parseChunksGo_cons_eq (fuel : Nat) (bytes : List Nat)
    (hne : bytes ≠ []) :
    parseChunksGo (fuel + 1) bytes =
      (if bytes.length < 12 + decodeBe32 (bytes.take 4) then Option.none
       else if decodeBe32 ((bytes.drop (8 + decodeBe32 (bytes.take 4))).take 4) =
           crc32 ((bytes.drop 4).take 4 ++
             (bytes.drop 8).take (decodeBe32 (bytes.take 4))) then
         (parseChunksGo fuel
           (bytes.drop (12 + decodeBe32 (bytes.take 4)))).map
           (fun cs => ⟨(bytes.drop 4).take 4,
             (bytes.drop 8).take (decodeBe32 (bytes.take 4))⟩ :: cs)
       else Option.none) := by
  match bytes with
  | [] => exact absurd rfl hne
  | b :: bs => rfl

theorem parseChunksGo_congr :
    ∀ (fuel fuel' : Nat) (bytes : List Nat), bytes.length ≤ fuel →
      bytes.length ≤ fuel' → parseChunksGo fuel bytes = parseChunksGo fuel' bytes := by
  intro fuel
  induction fuel with
  | zero =>
    intro fuel' bytes hl _
    have h0 : bytes = [] := List.eq_nil_of_length_eq_zero (Nat.le_zero.mp hl)
    subst h0
    cases fuel' <;> rfl
  | succ f ih =>
    intro fuel' bytes hl hl'
    match bytes with
    | [] => cases fuel' <;> rfl
    | b :: bs =>
      match fuel' with
      | 0 => simp at hl'
      | f' + 1 =>
        rw [parseChunksGo_cons_eq f (b :: bs) (by simp),
          parseChunksGo_cons_eq f' (b :: bs) (by simp)]
        have hrec : ((b :: bs).drop
            (12 + decodeBe32 ((b :: bs).take 4))).length ≤ f ∧
            ((b :: bs).drop
            (12 + decodeBe32 ((b :: bs).take 4))).length ≤ f' := by
          simp only [List.length_drop, List.length_cons]
          simp only [List.length_cons] at hl hl'
          omega
        rw [ih _ _ hrec.1 hrec.2]

theorem drop4_be32_append (n : Nat) (r : List Nat) :
    (be32 n ++ r).drop 4 = r := by
  simp [be32]

theorem take_len_append (t r : List Nat) (h : t.length = 4) :
    (t ++ r).take 4 = t := by
  rw [← h, List.take_left]

theorem drop_len_append (t r : List Nat) (h : t.length = 4) :
    (t ++ r).drop 4 = r := by
  rw [← h, List.drop_left]

/-- Reading one well-formed chunk off the stream succeeds, verifies its
CRC, and leaves the rest. -/
theorem parseChunks_cons (c : Chunk) (rest : List Nat)
    (ht : c.ctype.length = 4) (hd : c.cdata.length < 2 ^ 32) :
    parseChunks (chunkBytes c ++ rest) =
      (parseChunks rest).map (fun cs => c :: cs) := by
  have hlenc : (chunkBytes c).length = 12 + c.cdata.length := by
    simp [chunkBytes, be32, ht]
    omega
  have hlen : (chunkBytes c ++ rest).length =
      12 + c.cdata.length + rest.length := by
    rw [List.length_append, hlenc]
  have hne : chunkBytes c ++ rest ≠ [] := by
    intro h
    have := congrArg List.length h
    rw [hlen] at this
    simp at this
  -- normalize the stream into nested appends
  have hstream : chunkBytes c ++ rest = be32 c.cdata.length ++
      (c.ctype ++ (c.cdata ++ (be32 (crc32 (c.ctype ++ c.cdata)) ++ rest))) := by
    simp [chunkBytes, List.append_assoc]
  have htake4 : (chunkBytes c ++ rest).take 4 = be32 c.cdata.length := by
    rw [hstream, take4_be32_append]
  have hn : decodeBe32 ((chunkBytes c ++ rest).take 4) = c.cdata.length := by
    rw [htake4, decodeBe32_be32, Nat.mod_eq_of_lt hd]
  have hdrop4 : (chunkBytes c ++ rest).drop 4 =
      c.ctype ++ (c.cdata ++ (be32 (crc32 (c.ctype ++ c.cdata)) ++ rest)) := by
    rw [hstream, drop4_be32_append]
  have htype : ((chunkBytes c ++ rest).drop 4).take 4 = c.ctype := by
    rw [hdrop4, take_len_append _ _ ht]
  have hdrop8 : (chunkBytes c ++ rest).drop 8 =
      c.cdata ++ (be32 (crc32 (c.ctype ++ c.cdata)) ++ rest) := by
    have : (8 : Nat) = 4 + 4 := rfl
    rw [this, ← List.drop_drop, hdrop4, drop_len_append _ _ ht]
  have hdata : ((chunkBytes c ++ rest).drop 8).take c.cdata.length =
      c.cdata := by
    rw [hdrop8]
    exact List.take_left' rfl
  have hdropcrc : (chunkBytes c ++ rest).drop (8 + c.cdata.length) =
      be32 (crc32 (c.ctype ++ c.cdata)) ++ rest := by
    rw [← List.drop_drop c.cdata.length 8, hdrop8, List.drop_left' rfl]
  have hcrc : decodeBe32 (((chunkBytes c ++ rest).drop
      (8 + c.cdata.length)).take 4) = crc32 (c.ctype ++ c.cdata) := by
    rw [hdropcrc, take4_be32_append, decodeBe32_be32,
      Nat.mod_eq_of_lt (crc32_lt _)]
  have hdroprest : (chunkBytes c ++ rest).drop (12 + c.cdata.length) =
      rest := by
    have h12 : 12 + c.cdata.length = (8 + c.cdata.length) + 4 := by omega
    rw [h12, ← List.drop_drop 4 (8 + c.cdata.length), hdropcrc,
      drop4_be32_append]
  unfold parseChunks
  rw [hlen]
  have hfe : 12 + c.cdata.length + rest.length =
      (11 + c.cdata.length + rest.length) + 1 := by omega
  rw [hfe, parseChunksGo_cons_eq _ _ hne, hn]
  rw [if_neg (by rw [hlen]; omega)]
  rw [hcrc, htype, hdata]
  rw [if_pos rfl, hdroprest]
  rw [parseChunksGo_congr _ rest.length rest (by omega) (Nat.le_refl _)]

/-- The whole rendered chunk stream parses back, CRCs verified. -/
theorem parseChunks_flatten (cs : List Chunk)
    (h : ∀ c ∈ cs, c.ctype.length = 4 ∧ c.cdata.length < 2 ^ 32) :
    parseChunks ((cs.map chunkBytes).flatten) = some cs := by
  induction cs with
  | nil => rfl
  | cons c cs ih =>
    rw [List.map_cons, List.flatten_cons,
      parseChunks_cons c _ (h c (List.mem_cons_self _ _)).1
        (h c (List.mem_cons_self _ _)).2,
      ih (fun c hc => h c (List.mem_cons_of_mem _ hc))]
    rfl

theorem runTrace_typeInv (zlib : List Nat → List Nat) :
    ∀ (ops : List Op) (st : EncState), TypeInv st →
      TypeInv (runTrace zlib st ops).2 := by
  intro ops
  induction ops with
  | nil => intro st h; exact h
  | cons op ops ih =>
    intro st h
    simp only [runTrace]
    cases hso : stepOp zlib st op with
    | mk r st1 =>
      have h1 : TypeInv st1 := by
        have := stepOp_typeInv zlib st op h
        rw [hso] at this
        exact this
      cases r with
      | ok a => exact ih st1 h1
      | err e => exact ih st1 h1
      | panic => exact h1

theorem typeInv_initState (meta : Meta) : TypeInv (initState meta) := by
  intro c hc
  rcases List.mem_cons.mp hc with h | h
  · rw [h]; rfl
  · rw [List.mem_singleton.mp h]; rfl

theorem typeInv_finish (st : EncState) (h : TypeInv st) :
    TypeInv (finish st).2 := by
  rcases finish_spec st with ⟨_, heq⟩ | ⟨_, heq⟩ <;> rw [heq]
  · intro c hc
    rcases List.mem_append.mp hc with h' | h'
    · exact h c h'
    · rw [List.mem_singleton.mp h']; rfl
  · exact h

/-! ## The standard PNG inverse filter (for claim C6)

The decoder side is not part of this repository; it is modelled from the
spec's description of the PNG inverse filter: each output row carries a
1-byte tag, and each byte is reconstructed left to right as
`Recon(x) = Filt(x) + predictor(a, b, c) (mod 256)` with `a` the
reconstructed left neighbour (`pixel_bytes` back, 0 off the edge), `b` the
reconstructed byte above (0 in the top row) and `c` the reconstructed
upper-left byte. -/

/-- Modelled from the spec: the standard PNG Paeth predictor
(`a` left, `b` above, `c` upper-left), ties broken in order a, b, c. -/
def paethPredictor (a b c : Nat) : Nat :=
  let p : Int := (a : Int) + (b : Int) - (c : Int)
  let pa := (p - a).natAbs
  let pbv := (p - b).natAbs
  let pc := (p - c).natAbs
  if pa ≤ pbv ∧ pa ≤ pc then a
  else if pbv ≤ pc then b
  else c

/-- Modelled from the spec: the per-tag predictor of the PNG inverse
filter; `none` for an unknown tag. -/
def reconPredictor (tag a b c : Nat) : Option Nat :=
  match tag with
  | 0 => some 0
  | 1 => some a
  | 2 => some b
  | 3 => some ((a + b) / 2)
  | 4 => some (paethPredictor a b c)
  | _ => Option.none

/-- Modelled from the spec: reconstruct one row left to right; `acc` is the
already-reconstructed prefix, `prev` the previous reconstructed row. -/
def reconRowGo (tag pb : Nat) (prev : List Nat) (acc : List Nat) :
    List Nat → Option (List Nat)
  | [] => some acc
  | f :: rest =>
    let i := acc.length
    let a := if pb ≤ i then acc.getD (i - pb) 0 else 0
    let b := prev.getD i 0
    let c := if pb ≤ i then prev.getD (i - pb) 0 else 0
    match reconPredictor tag a b c with
    | some p => reconRowGo tag pb prev (acc ++ [(f + p) % 256]) rest
    | Option.none => Option.none

/-- Modelled from the spec: apply the inverse filter row by row. -/
def unfilterGo (pb : Nat) (prev : List Nat) :
    List (List Nat) → Option (List Nat)
  | [] => some []
  | [] :: _ => Option.none
  | (tag :: fr) :: rest =>
    match reconRowGo tag pb prev [] fr with
    | some r =>
      match unfilterGo pb r rest with
      | some rs => some (r ++ rs)
      | Option.none => Option.none
    | Option.none => Option.none

/-- Modelled from the spec: the standard PNG inverse filter over a stream
of `1 + row_stride`-byte encoded rows. -/
def unfilter (row_stride pb : Nat) (stream : List Nat) : Option (List Nat) :=
  if row_stride = 0 then Option.none
  else unfilterGo pb [] (chunks (1 + row_stride) stream)

/-- The source's `paeth` IS the spec's Paeth predictor, modulo the argument
order (source: left, upper-left, up / spec: left, up, upper-left). -/
theorem paeth_eq_paethPredictor (left up_left up : Nat) :
    paeth left up_left up = paethPredictor left up up_left := rfl

theorem reconPredictor_isSome (tag a b c : Nat) (h : tag ≤ 4) :
    reconPredictor tag a b c = some ((reconPredictor tag a b c).getD 0) := by
  match tag, h with
  | 0, _ => rfl
  | 1, _ => rfl
  | 2, _ => rfl
  | 3, _ => rfl
  | 4, _ => rfl

theorem wsub_add_cancel (x p : Nat) (hx : x < 256) :
    (wsub x p + p) % 256 = x := by
  unfold wsub
  omega

theorem wsub_zero (x : Nat) (hx : x < 256) : wsub x 0 = x := by
  unfold wsub
  omega

theorem getD_take (l : List Nat) (k j : Nat) (d : Nat) (h : j < k) :
    (l.take k).getD j d = l.getD j d := by
  rcases Nat.lt_or_ge j l.length with hj | hj
  · rw [List.getD_eq_getElem _ _ (by simp; omega), List.getD_eq_getElem _ _ hj]
    simp [List.getElem_take]
  · rw [List.getD_eq_default _ _ (by simp; omega), List.getD_eq_default _ _ hj]

theorem getD_lt_of_bytes (l : List Nat) (j : Nat) (hj : j < l.length)
    (hb : ∀ x ∈ l, x < 256) : l.getD j 0 < 256 := by
  rw [List.getD_eq_getElem _ _ hj]
  exact hb _ (List.getElem_mem hj)

/-- Resolving the match in one step of `reconRowGo`. -/
theorem reconRowGo_cons (tag pb : Nat) (prev acc : List Nat) (f : Nat)
    (rest : List Nat) (p : Nat)
    (hp : reconPredictor tag
      (if pb ≤ acc.length then acc.getD (acc.length - pb) 0 else 0)
      (prev.getD acc.length 0)
      (if pb ≤ acc.length then prev.getD (acc.length - pb) 0 else 0) =
        some p) :
    reconRowGo tag pb prev acc (f :: rest) =
      reconRowGo tag pb prev (acc ++ [(f + p) % 256]) rest := by
  simp only [reconRowGo, hp]

/-- The generic row inversion: if every byte of the encoded row is the
wrapping difference of the original byte and the predictor that the decoder
will recompute, the left-to-right reconstruction returns the original
row. -/
theorem reconRowGo_spec (tag pb : Nat) (htag : tag ≤ 4) (hpb : 1 ≤ pb)
    (prev cur : List Nat) (hbytes : ∀ x ∈ cur, x < 256) :
    ∀ (rest acc : List Nat),
      acc = cur.take acc.length →
      acc.length + rest.length = cur.length →
      (∀ j, j < rest.length → rest.getD j 0 =
        wsub (cur.getD (acc.length + j) 0)
          ((reconPredictor tag
            (if pb ≤ acc.length + j then cur.getD (acc.length + j - pb) 0 else 0)
            (prev.getD (acc.length + j) 0)
            (if pb ≤ acc.length + j then prev.getD (acc.length + j - pb) 0
              else 0)).getD 0)) →
      reconRowGo tag pb prev acc rest = some cur := by
  intro rest
  induction rest with
  | nil =>
    intro acc hacc hlen _
    simp only [List.length_nil, Nat.add_zero] at hlen
    rw [reconRowGo, hacc, hlen, List.take_length]
  | cons f rest ih =>
    intro acc hacc hlen hpoint
    have hi : acc.length < cur.length := by
      simp only [List.length_cons] at hlen
      omega
    -- the decoder's a agrees with the spec's a (computed from cur)
    have hgetD : ∀ j, j < acc.length → acc.getD j 0 = cur.getD j 0 := by
      intro j hj
      conv_lhs => rw [hacc]
      exact getD_take cur acc.length j 0 hj
    have ha : (if pb ≤ acc.length then acc.getD (acc.length - pb) 0 else 0) =
        (if pb ≤ acc.length then cur.getD (acc.length - pb) 0 else 0) := by
      by_cases hc : pb ≤ acc.length
      · rw [if_pos hc, if_pos hc, hgetD _ (by omega)]
      · rw [if_neg hc, if_neg hc]
    have hpred : reconPredictor tag
        (if pb ≤ acc.length then acc.getD (acc.length - pb) 0 else 0)
        (prev.getD acc.length 0)
        (if pb ≤ acc.length then prev.getD (acc.length - pb) 0 else 0) =
        some ((reconPredictor tag
          (if pb ≤ acc.length then cur.getD (acc.length - pb) 0 else 0)
          (prev.getD acc.length 0)
          (if pb ≤ acc.length then prev.getD (acc.length - pb) 0
            else 0)).getD 0) := by
      rw [ha]
      exact reconPredictor_isSome tag _ _ _ htag
    have hf : f = wsub (cur.getD acc.length 0)
        ((reconPredictor tag
          (if pb ≤ acc.length then cur.getD (acc.length - pb) 0 else 0)
          (prev.getD acc.length 0)
          (if pb ≤ acc.length then prev.getD (acc.length - pb) 0
            else 0)).getD 0) := by
      have h0 := hpoint 0 (by simp)
      simp only [Nat.add_zero] at h0
      exact h0
    have hcurb : cur.getD acc.length 0 < 256 :=
      getD_lt_of_bytes cur acc.length hi hbytes
    rw [reconRowGo_cons tag pb prev acc f rest _ hpred]
    have helem : (f + (reconPredictor tag
        (if pb ≤ acc.length then cur.getD (acc.length - pb) 0 else 0)
        (prev.getD acc.length 0)
        (if pb ≤ acc.length then prev.getD (acc.length - pb) 0
          else 0)).getD 0) % 256 = cur.getD acc.length 0 := by
      rw [hf, wsub_add_cancel _ _ hcurb]
    rw [helem]
    have hacc' : acc ++ [cur.getD acc.length 0] =
        cur.take (acc.length + 1) := by
      rw [List.take_succ, List.getElem?_eq_getElem hi]
      rw [List.getD_eq_getElem _ _ hi]
      rw [← hacc]
      rfl
    refine ih (acc ++ [cur.getD acc.length 0]) ?_ ?_ ?_
    · rw [hacc']
      simp
    · simp only [List.length_append, List.length_singleton]
      simp only [List.length_cons] at hlen
      omega
    · intro j hj
      have hshift := hpoint (j + 1) (by simp only [List.length_cons]; omega)
      have h1 : (f :: rest).getD (j + 1) 0 = rest.getD j 0 := rfl
      rw [h1] at hshift
      have h2 : acc.length + (j + 1) = acc.length + 1 + j := by omega
      rw [h2] at hshift
      simp only [List.length_append, List.length_singleton]
      exact hshift

/-- The shape shared by every encoded row: byte `i` is the wrapping
difference of the original byte and the predictor the decoder recomputes
from the already-reconstructed neighbours. -/
def encRowSpec (tag pb n : Nat) (prev cur : List Nat) : List Nat :=
  (List.range n).map fun i =>
    wsub (cur.getD i 0)
      ((reconPredictor tag
        (if pb ≤ i then cur.getD (i - pb) 0 else 0)
        (prev.getD i 0)
        (if pb ≤ i then prev.getD (i - pb) 0 else 0)).getD 0)

/-- Encode a list of rows, each against its predecessor. -/
def encChain (tag pb n : Nat) : List Nat → List (List Nat) → List (List Nat)
  | _, [] => []
  | prev, r :: rs =>
    (tag :: encRowSpec tag pb n prev r) :: encChain tag pb n r rs

theorem encRowSpec_length (tag pb n : Nat) (prev cur : List Nat) :
    (encRowSpec tag pb n prev cur).length = n := by
  simp [encRowSpec]

theorem encChain_mem_length (tag pb n : Nat) :
    ∀ (rows : List (List Nat)) (prev : List Nat),
      ∀ e ∈ encChain tag pb n prev rows, e.length = 1 + n := by
  intro rows
  induction rows with
  | nil => intro prev e he; simp [encChain] at he
  | cons r rs ih =>
    intro prev e he
    rcases List.mem_cons.mp he with h | h
    · rw [h]
      simp [encRowSpec, Nat.add_comm]
    · exact ih r e h

theorem range_map_getD (n j : Nat) (f : Nat → Nat) (hj : j < n) :
    ((List.range n).map f).getD j 0 = f j := by
  rw [List.getD_eq_getElem _ _ (by simp [hj])]
  simp

theorem reconRow_encRowSpec (tag pb n : Nat) (htag : tag ≤ 4) (hpb : 1 ≤ pb)
    (prev cur : List Nat) (hb : ∀ x ∈ cur, x < 256) (hlen : cur.length = n) :
    reconRowGo tag pb prev [] (encRowSpec tag pb n prev cur) = some cur := by
  apply reconRowGo_spec tag pb htag hpb prev cur hb (encRowSpec tag pb n prev cur) []
  · rfl
  · simp [encRowSpec_length, hlen]
  · intro j hj
    have hj' : j < n := by
      rw [encRowSpec_length] at hj
      exact hj
    show (encRowSpec tag pb n prev cur).getD j 0 = _
    unfold encRowSpec
    rw [range_map_getD n j _ hj']
    simp only [List.length_nil, Nat.zero_add]

theorem unfilterGo_encChain (tag pb n : Nat) (htag : tag ≤ 4)
    (hpb : 1 ≤ pb) :
    ∀ (rows : List (List Nat)) (prev : List Nat),
      (∀ r ∈ rows, r.length = n ∧ ∀ x ∈ r, x < 256) →
      unfilterGo pb prev (encChain tag pb n prev rows) =
        some rows.flatten := by
  intro rows
  induction rows with
  | nil => intro prev _; rfl
  | cons r rs ih =>
    intro prev h
    obtain ⟨hrl, hrb⟩ := h r (List.mem_cons_self _ _)
    show unfilterGo pb prev ((tag :: encRowSpec tag pb n prev r) ::
      encChain tag pb n r rs) = _
    simp only [unfilterGo,
      reconRow_encRowSpec tag pb n htag hpb prev r hrb hrl,
      ih r (fun r' hr' => h r' (List.mem_cons_of_mem _ hr')),
      List.flatten_cons]

/-- Closing step: the inverse filter recovers the rows from the rendered
chain. -/
theorem unfilter_encChain (tag pb s : Nat) (htag : tag ≤ 4) (hpb : 1 ≤ pb)
    (hs : 1 ≤ s) (rows : List (List Nat))
    (hcond : ∀ r ∈ rows, r.length = s ∧ ∀ x ∈ r, x < 256) :
    unfilter s pb (encChain tag pb s [] rows).flatten =
      some rows.flatten := by
  unfold unfilter
  rw [if_neg (by omega),
    chunks_flatten_inv (1 + s) (by omega) _ (encChain_mem_length tag pb s rows [])]
  exact unfilterGo_encChain tag pb s htag hpb rows [] hcond

theorem range_map_ext_eq (n : Nat) (l : List Nat) (f : Nat → Nat)
    (hlen : l.length = n) (h : ∀ j, j < n → f j = l.getD j 0) :
    (List.range n).map f = l := by
  apply List.ext_getElem
  · simp [hlen]
  · intro i h1 h2
    simp only [List.getElem_map, List.getElem_range]
    rw [h i (by simpa using h1), List.getD_eq_getElem _ _ h2]

/-- A tag-0 row is raw: the predictor is 0 whatever the previous row. -/
theorem noneRow_eq_spec (pb n : Nat) (prev l : List Nat)
    (hb : ∀ x ∈ l, x < 256) (hlen : l.length = n) :
    encRowSpec 0 pb n prev l = l := by
  unfold encRowSpec
  apply range_map_ext_eq n l _ hlen
  intro j hj
  exact wsub_zero _ (getD_lt_of_bytes l j (by omega) hb)

/-- The top row of the Up filter is raw: the row above is all zeros. -/
theorem topRow2_eq_spec (pb n : Nat) (l : List Nat)
    (hb : ∀ x ∈ l, x < 256) (hlen : l.length = n) :
    encRowSpec 2 pb n [] l = l := by
  unfold encRowSpec
  apply range_map_ext_eq n l _ hlen
  intro j hj
  show wsub (l.getD j 0) (([] : List Nat).getD j 0) = l.getD j 0
  exact wsub_zero _ (getD_lt_of_bytes l j (by omega) hb)

theorem subRow_eq_spec (pb n : Nat) (prev line : List Nat)
    (hb : ∀ x ∈ line, x < 256) (hlen : line.length = n) :
    subRow pb n line = encRowSpec 1 pb n prev line := by
  unfold subRow encRowSpec
  apply List.map_congr_left
  intro i hi
  have hi' : i < n := List.mem_range.mp hi
  by_cases hc : i < pb
  · rw [if_pos hc, if_neg (by omega)]
    exact (wsub_zero _ (getD_lt_of_bytes line i (by omega) hb)).symm
  · rw [if_neg hc, if_pos (by omega)]
    rfl

theorem upRow_eq_spec (pb n : Nat) (a b : List Nat) :
    upRow n a b = encRowSpec 2 pb n a b := rfl

theorem avgRow0_eq_spec (pb n : Nat) (l : List Nat)
    (hb : ∀ x ∈ l, x < 256) (hlen : l.length = n) :
    avgRow0 pb n l = encRowSpec 3 pb n [] l := by
  unfold avgRow0 encRowSpec
  apply List.map_congr_left
  intro i hi
  have hi' : i < n := List.mem_range.mp hi
  by_cases hc : i < pb
  · rw [if_pos hc, if_neg (by omega)]
    show l.getD i 0 = wsub (l.getD i 0)
      ((0 + ([] : List Nat).getD i 0) / 2)
    rw [List.getD_nil]
    exact (wsub_zero _ (getD_lt_of_bytes l i (by omega) hb)).symm
  · rw [if_neg hc, if_pos (by omega)]
    show wsub (l.getD i 0) (l.getD (i - pb) 0 / 2) =
      wsub (l.getD i 0) ((l.getD (i - pb) 0 + ([] : List Nat).getD i 0) / 2)
    rw [List.getD_nil, Nat.add_zero]

theorem avgRow_eq_spec (pb n : Nat) (a b : List Nat)
    (hab : ∀ x ∈ a, x < 256) (hbb : ∀ x ∈ b, x < 256)
    (hla : a.length = n) (hlb : b.length = n) :
    avgRow pb n a b = encRowSpec 3 pb n a b := by
  unfold avgRow encRowSpec
  apply List.map_congr_left
  intro i hi
  have hi' : i < n := List.mem_range.mp hi
  by_cases hc : i < pb
  · rw [if_pos hc, if_neg (by omega)]
    show wsub (b.getD i 0) (a.getD i 0 / 2) =
      wsub (b.getD i 0) ((0 + a.getD i 0) / 2)
    rw [Nat.zero_add]
  · rw [if_neg hc, if_pos (by omega)]
    show wsub (b.getD i 0) ((b.getD (i - pb) 0 + a.getD i 0) / 2 % 256) =
      wsub (b.getD i 0) ((b.getD (i - pb) 0 + a.getD i 0) / 2)
    have h1 : b.getD (i - pb) 0 < 256 :=
      getD_lt_of_bytes b (i - pb) (by omega) hbb
    have h2 : a.getD i 0 < 256 := getD_lt_of_bytes a i (by omega) hab
    rw [Nat.mod_eq_of_lt (by omega)]

theorem paethRow0_eq_spec (pb n : Nat) (l : List Nat)
    (hb : ∀ x ∈ l, x < 256) (hlen : l.length = n) :
    paethRow0 pb n l = encRowSpec 4 pb n [] l := by
  unfold paethRow0 encRowSpec
  apply List.map_congr_left
  intro i hi
  have hi' : i < n := List.mem_range.mp hi
  by_cases hc : i < pb
  · rw [if_pos hc, if_neg (by omega)]
    show l.getD i 0 = wsub (l.getD i 0)
      ((reconPredictor 4 0 (([] : List Nat).getD i 0)
        (if pb ≤ i then ([] : List Nat).getD (i - pb) 0 else 0)).getD 0)
    rw [if_neg (by omega)]
    exact (wsub_zero _ (getD_lt_of_bytes l i (by omega) hb)).symm
  · rw [if_neg hc, if_pos (by omega)]
    show wsub (l.getD i 0) (paeth (l.getD (i - pb) 0) 0 0) =
      wsub (l.getD i 0) ((reconPredictor 4 (l.getD (i - pb) 0)
        (([] : List Nat).getD i 0)
        (if pb ≤ i then ([] : List Nat).getD (i - pb) 0 else 0)).getD 0)
    rw [if_pos (by omega)]
    rfl

theorem paethRow_eq_spec (pb n : Nat) (a b : List Nat) :
    paethRow pb n a b = encRowSpec 4 pb n a b := by
  unfold paethRow encRowSpec
  apply List.map_congr_left
  intro i hi
  by_cases hc : i < pb
  · have h1 : ¬ pb ≤ i := by omega
    rw [if_pos hc, if_neg h1, if_neg h1]
    rfl
  · have h1 : pb ≤ i := by omega
    rw [if_neg hc, if_pos h1, if_pos h1]
    rfl

/-- A per-row-encoded stream (None/Sub shape) is an `encChain`. -/
theorem map_rows_eq_encChain (tag pb n : Nat) (rowFn : List Nat → List Nat)
    (rows : List (List Nat))
    (h : ∀ (prev l : List Nat), l ∈ rows →
      rowFn l = encRowSpec tag pb n prev l) :
    ∀ prev, rows.map (fun l => tag :: rowFn l) = encChain tag pb n prev rows := by
  induction rows with
  | nil => intro prev; rfl
  | cons r rs ih =>
    intro prev
    show (tag :: rowFn r) :: rs.map (fun l => tag :: rowFn l) = _
    rw [h prev r (List.mem_cons_self _ _),
      ih (fun p l hl => h p l (List.mem_cons_of_mem _ hl)) r]
    rfl

/-- A windowed stream (Up/Average/Paeth shape) is an `encChain`. -/
theorem zip_rows_eq_encChain (tag pb n : Nat)
    (rowFn : List Nat → List Nat → List Nat) :
    ∀ (rest : List (List Nat)) (l0 : List Nat),
      (∀ a b : List Nat, (a, b) ∈ (l0 :: rest).zip rest →
        rowFn a b = encRowSpec tag pb n a b) →
      ((l0 :: rest).zip rest).map (fun p => tag :: rowFn p.1 p.2) =
        encChain tag pb n l0 rest := by
  intro rest
  induction rest with
  | nil => intro l0 _; rfl
  | cons r1 rs ih =>
    intro l0 h
    show ((l0, r1) :: (r1 :: rs).zip rs).map (fun p => tag :: rowFn p.1 p.2) = _
    show (tag :: rowFn l0 r1) ::
      ((r1 :: rs).zip rs).map (fun p => tag :: rowFn p.1 p.2) = _
    rw [h l0 r1 (by simp), ih r1 (fun a b hab => h a b (by
      simp only [List.zip_cons_cons, List.mem_cons]
      right
      exact hab))]
    rfl

/-- C6: for every filter among None, Sub, Up, Average and Paeth, and every
byte buffer whose rows are complete (`row_stride ∣ length`) with
`1 ≤ pixel_bytes ≤ row_stride`, applying the standard PNG inverse filter to
the filtered rows the source produces reconstructs the original buffer
exactly — including the top row and the leftmost `pixel_bytes` of each
row. -/
theorem C6_filters_invertible (F : Filter) (data : List Nat) (s pb : Nat)
    (out : List Nat) (hb : ∀ x ∈ data, x < 256) (hpb1 : 1 ≤ pb)
    (hpb : pb ≤ s) (hdvd : s ∣ data.length)
    (happ : F.apply data s pb = .ok out) :
    unfilter s pb out = some data := by
  have hs : 1 ≤ s := le_trans hpb1 hpb
  have hrows_len : ∀ r ∈ chunks s data, r.length = s :=
    chunks_length_eq_of_dvd s hs data hdvd
  have hrows_b : ∀ r ∈ chunks s data, ∀ x ∈ r, x < 256 :=
    fun r hr x hx => hb x (mem_of_mem_chunks s hs data r hr x hx)
  have hcond : ∀ r ∈ chunks s data, r.length = s ∧ ∀ x ∈ r, x < 256 :=
    fun r hr => ⟨hrows_len r hr, hrows_b r hr⟩
  have hflat : (chunks s data).flatten = data := chunks_flatten s hs data
  cases F with
  | None =>
    rw [Filter.apply, filter_none_ok data s hs] at happ
    injection happ with hout
    have hchain : (chunks s data).map (fun line => (0 : Nat) :: line) =
        encChain 0 pb s [] (chunks s data) :=
      map_rows_eq_encChain 0 pb s (fun l => l) (chunks s data)
        (fun prev l hl =>
          (noneRow_eq_spec pb s prev l (hrows_b l hl) (hrows_len l hl)).symm) []
    rw [← hout, hchain,
      unfilter_encChain 0 pb s (by omega) hpb1 hs _ hcond, hflat]
  | Sub =>
    rw [Filter.apply, filter_sub_ok data s pb hs hpb hdvd] at happ
    injection happ with hout
    have hchain : (chunks s data).map (fun line => (1 : Nat) :: subRow pb s line) =
        encChain 1 pb s [] (chunks s data) :=
      map_rows_eq_encChain 1 pb s (subRow pb s) (chunks s data)
        (fun prev l hl =>
          subRow_eq_spec pb s prev l (hrows_b l hl) (hrows_len l hl)) []
    rw [← hout, hchain,
      unfilter_encChain 1 pb s (by omega) hpb1 hs _ hcond, hflat]
  | Up =>
    have hne : data ≠ [] := by
      intro hdd
      rw [Filter.apply] at happ
      unfold filter_up at happ
      rw [if_neg (by omega), hdd] at happ
      simp [chunks_nil] at happ
    obtain ⟨l0, rest, hrows, hok⟩ := filter_up_ok data s hs hdvd hne
    rw [Filter.apply, hok] at happ
    injection happ with hout
    rw [hrows] at hcond hrows_len hrows_b hflat
    have h0 : (2 : Nat) :: l0 = 2 :: encRowSpec 2 pb s [] l0 := by
      rw [topRow2_eq_spec pb s l0 (hrows_b l0 (List.mem_cons_self _ _))
        (hrows_len l0 (List.mem_cons_self _ _))]
    have hzip : ((l0 :: rest).zip rest).map
        (fun p => (2 : Nat) :: upRow s p.1 p.2) = encChain 2 pb s l0 rest :=
      zip_rows_eq_encChain 2 pb s (fun a b => upRow s a b) rest l0
        (fun a b _ => upRow_eq_spec pb s a b)
    have hres : (2 :: l0) ++ (((l0 :: rest).zip rest).map
        (fun p => (2 : Nat) :: upRow s p.1 p.2)).flatten =
        (encChain 2 pb s [] (l0 :: rest)).flatten := by
      rw [hzip, h0]
      rfl
    rw [← hout, hres,
      unfilter_encChain 2 pb s (by omega) hpb1 hs _ hcond, hflat]
  | Average =>
    have hne : data ≠ [] := by
      intro hdd
      rw [Filter.apply] at happ
      unfold filter_average at happ
      rw [if_neg (by omega), hdd] at happ
      simp [chunks_nil] at happ
    obtain ⟨l0, rest, hrows, hok⟩ := filter_average_ok data s pb hs hpb hdvd hne
    rw [Filter.apply, hok] at happ
    injection happ with hout
    rw [hrows] at hcond hrows_len hrows_b hflat
    have h0 : (3 : Nat) :: avgRow0 pb s l0 = 3 :: encRowSpec 3 pb s [] l0 := by
      rw [avgRow0_eq_spec pb s l0 (hrows_b l0 (List.mem_cons_self _ _))
        (hrows_len l0 (List.mem_cons_self _ _))]
    have hzip : ((l0 :: rest).zip rest).map
        (fun p => (3 : Nat) :: avgRow pb s p.1 p.2) = encChain 3 pb s l0 rest := by
      refine zip_rows_eq_encChain 3 pb s (fun a b => avgRow pb s a b) rest l0
        (fun a b hab => ?_)
      have hmem := List.of_mem_zip hab
      exact avgRow_eq_spec pb s a b (hrows_b a hmem.1)
        (hrows_b b (List.mem_cons_of_mem _ hmem.2))
        (hrows_len a hmem.1) (hrows_len b (List.mem_cons_of_mem _ hmem.2))
    have hres : (3 :: avgRow0 pb s l0) ++ (((l0 :: rest).zip rest).map
        (fun p => (3 : Nat) :: avgRow pb s p.1 p.2)).flatten =
        (encChain 3 pb s [] (l0 :: rest)).flatten := by
      rw [hzip, h0]
      rfl
    rw [← hout, hres,
      unfilter_encChain 3 pb s (by omega) hpb1 hs _ hcond, hflat]
  | Paeth =>
    have hne : data ≠ [] := by
      intro hdd
      rw [Filter.apply] at happ
      unfold filter_paeth at happ
      rw [if_neg (by omega), hdd] at happ
      simp [chunks_nil] at happ
    obtain ⟨l0, rest, hrows, hok⟩ := filter_paeth_ok data s pb hs hpb hdvd hne
    rw [Filter.apply, hok] at happ
    injection happ with hout
    rw [hrows] at hcond hrows_len hrows_b hflat
    have h0 : (4 : Nat) :: paethRow0 pb s l0 = 4 :: encRowSpec 4 pb s [] l0 := by
      rw [paethRow0_eq_spec pb s l0 (hrows_b l0 (List.mem_cons_self _ _))
        (hrows_len l0 (List.mem_cons_self _ _))]
    have hzip : ((l0 :: rest).zip rest).map
        (fun p => (4 : Nat) :: paethRow pb s p.1 p.2) = encChain 4 pb s l0 rest :=
      zip_rows_eq_encChain 4 pb s (fun a b => paethRow pb s a b) rest l0
        (fun a b _ => paethRow_eq_spec pb s a b)
    have hres : (4 :: paethRow0 pb s l0) ++ (((l0 :: rest).zip rest).map
        (fun p => (4 : Nat) :: paethRow pb s p.1 p.2)).flatten =
        (encChain 4 pb s [] (l0 :: rest)).flatten := by
      rw [hzip, h0]
      rfl
    rw [← hout, hres,
      unfilter_encChain 4 pb s (by omega) hpb1 hs _ hcond, hflat]

/-- C6 witness: the inversion theorem at a concrete Paeth-filtered
buffer. -/
theorem C6_witness :
    unfilter 3 1 [4, 250, 9, 4, 4, 206, 120, 178] = some [250, 3, 7, 200, 123, 45] :=
  C6_filters_invertible .Paeth [250, 3, 7, 200, 123, 45] 3 1
    [4, 250, 9, 4, 4, 206, 120, 178] (by decide) (by decide) (by decide)
    (by decide) (by decide)

/-- C7: every chunk the Encoder writes has the byte layout
`length:u32 ‖ type:[4] ‖ data ‖ crc:u32`, integers big-endian, where the
length field is the data's byte count and the trailer is the PNG CRC-32
(polynomial 0xEDB88320, reflected, init 0xFFFFFFFF, final XOR 0xFFFFFFFF)
of `type ‖ data`: after any run, the byte stream past the 8-byte signature
parses back into exactly the committed chunks with every CRC verified. -/
theorem C7_chunk_layout (zlib : List Nat → List Nat) (meta : Meta)
    (ops : List Op)
    (hlen : ∀ c ∈ (finish (runTrace zlib (initState meta) ops).2).2.chunks,
      c.cdata.length < 2 ^ 32) :
    sinkBytes (finish (runTrace zlib (initState meta) ops).2).2 =
      pngSignature ++
        ((finish (runTrace zlib (initState meta) ops).2).2.chunks.map
          chunkBytes).flatten ∧
    (∀ c ∈ (finish (runTrace zlib (initState meta) ops).2).2.chunks,
      chunkBytes c = be32 c.cdata.length ++ c.ctype ++ c.cdata ++
        be32 (crc32 (c.ctype ++ c.cdata))) ∧
    parseChunks ((sinkBytes
        (finish (runTrace zlib (initState meta) ops).2).2).drop 8) =
      some (finish (runTrace zlib (initState meta) ops).2).2.chunks := by
  have htype : TypeInv (finish (runTrace zlib (initState meta) ops).2).2 :=
    typeInv_finish _ (runTrace_typeInv zlib ops (initState meta)
      (typeInv_initState meta))
  refine ⟨rfl, fun c _ => rfl, ?_⟩
  have hdrop : (sinkBytes
      (finish (runTrace zlib (initState meta) ops).2).2).drop 8 =
      ((finish (runTrace zlib (initState meta) ops).2).2.chunks.map
        chunkBytes).flatten := by
    unfold sinkBytes
    have h8 : (8 : Nat) = pngSignature.length := rfl
    rw [h8, List.drop_left]
  rw [hdrop]
  exact parseChunks_flatten _ (fun c hc => ⟨htype c hc, hlen c hc⟩)

/-- C7 witness: the layout/parse theorem on a concrete one-frame run. -/
theorem C7_witness :
    sinkBytes (finish (runTrace id (initState (metaGray 1))
      [.writeFrame [0] Option.none (some .None) Option.none]).2).2 =
      pngSignature ++
        ((finish (runTrace id (initState (metaGray 1))
          [.writeFrame [0] Option.none (some .None)
            Option.none]).2).2.chunks.map chunkBytes).flatten ∧
    (∀ c ∈ (finish (runTrace id (initState (metaGray 1))
        [.writeFrame [0] Option.none (some .None) Option.none]).2).2.chunks,
      chunkBytes c = be32 c.cdata.length ++ c.ctype ++ c.cdata ++
        be32 (crc32 (c.ctype ++ c.cdata))) ∧
    parseChunks ((sinkBytes (finish (runTrace id (initState (metaGray 1))
        [.writeFrame [0] Option.none (some .None)
          Option.none]).2).2).drop 8) =
      some (finish (runTrace id (initState (metaGray 1))
        [.writeFrame [0] Option.none (some .None) Option.none]).2).2.chunks :=
  C7_chunk_layout id (metaGray 1)
    [.writeFrame [0] Option.none (some .None) Option.none] (by decide)

theorem seqFields_IEND :
    seqFields [⟨typeIEND, []⟩] = [] := by
  apply seqFields_other_chunk
  intro h
  rcases h with h | h <;> simp [typeIEND, typeFcTL, typeFdAT] at h

theorem seqFields_initState (meta : Meta) :
    seqFields (initState meta).chunks = [] := by
  show seqFields [⟨typeIHDR, ihdrData meta⟩, ⟨typeAcTL, actlData meta⟩] = []
  rw [seqFields_pair, seqFields_other_chunk, seqFields_other_chunk]
  · rfl
  · intro h
    rcases h with h | h <;> simp [typeAcTL, typeFcTL, typeFdAT] at h
  · intro h
    rcases h with h | h <;> simp [typeIHDR, typeFcTL, typeFdAT] at h

theorem range_map_mod (n : Nat) (h : n ≤ 2 ^ 32) :
    (List.range n).map (· % 2 ^ 32) = List.range n := by
  conv_rhs => rw [← List.map_id (List.range n)]
  apply List.map_congr_left
  intro i hi
  have : i < n := List.mem_range.mp hi
  simp only [id]
  exact Nat.mod_eq_of_lt (by omega)

theorem write_default_image_sequence (zlib : List Nat → List Nat)
    (st : EncState) (d : List Nat) (fil : Option Filter) (rs : Option Nat) :
    (write_default_image zlib st d fil rs).2.sequence = st.sequence := by
  rcases write_default_image_spec zlib st d fil rs with
    ⟨_, heq⟩ | ⟨_, _, heq⟩ | ⟨_, _, (⟨idata, heq⟩ | ⟨_, heq⟩)⟩ <;> rw [heq]

/-- C4: in every run whose operations and `finish` all succeed, the 4-byte
sequence fields embedded in the emitted fcTL and fdAT chunks, read in
emission order, are exactly `0, 1, 2, …` with no gaps and no repeats (the
counter bound keeps the u32 wire truncation invisible), and
`write_default_image` consumes no sequence number. -/
theorem C4_sequence_numbers (zlib : List Nat → List Nat) (meta : Meta)
    (ops : List Op)
    (hok : ∀ r ∈ (runTrace zlib (initState meta) ops).1, r.isOk)
    (hfin : (finish (runTrace zlib (initState meta) ops).2).1 = .ok ())
    (hbound : (runTrace zlib (initState meta) ops).2.sequence ≤ 2 ^ 32) :
    seqFields (finish (runTrace zlib (initState meta) ops).2).2.chunks =
      List.range (seqFields
        (finish (runTrace zlib (initState meta) ops).2).2.chunks).length ∧
    ∀ st d fil rs,
      (write_default_image zlib st d fil rs).2.sequence = st.sequence := by
  refine ⟨?_, fun st d fil rs => write_default_image_sequence zlib st d fil rs⟩
  have hinv0 : SeqInv (initState meta) := by
    unfold SeqInv
    rw [seqFields_initState]
    simp [initState]
  have hinv := runTrace_ok_inv zlib SeqInv
    (fun st op st' h hP => stepOp_ok_seqInv zlib st op st' h hP)
    ops (initState meta) hinv0 hok
  rcases finish_spec (runTrace zlib (initState meta) ops).2 with
    ⟨_, heqf⟩ | ⟨_, heqf⟩
  · rw [heqf]
    unfold SeqInv at hinv
    show seqFields ((runTrace zlib (initState meta) ops).2.chunks ++
        [⟨typeIEND, []⟩]) =
      List.range (seqFields ((runTrace zlib (initState meta) ops).2.chunks ++
        [⟨typeIEND, []⟩])).length
    rw [seqFields_append, seqFields_IEND, List.append_nil, hinv,
      range_map_mod _ hbound, List.length_range]
  · rw [heqf] at hfin
    simp at hfin

/-- C4 witness: a concrete two-frame run (fcTL seq 0, then fcTL seq 1 and
fdAT seq 2). -/
theorem C4_witness :
    seqFields (finish (runTrace id (initState (metaGray 2))
      [.writeFrame [0] Option.none Option.none Option.none,
       .writeFrame [0] Option.none Option.none Option.none]).2).2.chunks =
      List.range (seqFields (finish (runTrace id (initState (metaGray 2))
        [.writeFrame [0] Option.none Option.none Option.none,
         .writeFrame [0] Option.none Option.none
           Option.none]).2).2.chunks).length ∧
    ∀ st d fil rs,
      (write_default_image id st d fil rs).2.sequence = st.sequence :=
  C4_sequence_numbers id (metaGray 2)
    [.writeFrame [0] Option.none Option.none Option.none,
     .writeFrame [0] Option.none Option.none Option.none]
    (by decide) (by decide) (by decide)

/-- C9 counterexample: filter inference panics — it does not return `Paeth`
— on buffers with at least one complete row when `pixel_bytes` exceeds
`row_stride` (`[0]`, stride 1, pixel_bytes 3), or when the buffer has more
than 50 lines and a partial trailing row (103 bytes at stride 2). -/
theorem C9_cex_inference_panics :
    1 ≤ ([0] : List Nat).length / 1 ∧
    infer_best_filter [0] 1 3 = .panic ∧
    51 ≤ (List.replicate 103 0).length / 2 ∧
    infer_best_filter (List.replicate 103 0) 2 1 = .panic := by
  decide

/-- C9 (amended): for every buffer with at least one complete row, no
partial trailing row (`row_stride ∣ length`) and
`pixel_bytes ≤ row_stride`, inference returns `Filter.Paeth`: all five
filters produce raw (uncompressed) output of the identical length
`rows * (1 + row_stride)` on the sample and `max_by_key` resolves the tie
to the last enumerated variant. -/
theorem C9_inference_returns_paeth (data : List Nat) (s pb : Nat)
    (hpb1 : 1 ≤ pb) (hpb : pb ≤ s) (hdvd : s ∣ data.length)
    (hlen : s ≤ data.length) :
    infer_best_filter data s pb = .ok .Paeth :=
  (infer_best_filter_eq data s pb (by omega) hpb hdvd hlen).1

/-- C9 witness: inference on a concrete two-row grayscale buffer. -/
theorem C9_witness : infer_best_filter [7, 8] 1 1 = .ok .Paeth :=
  C9_inference_returns_paeth [7, 8] 1 1 (by decide) (by decide) (by decide)
    (by decide)

/-- C2 counterexample: the recorded value is NOT the length of the
compressed output of the sample — `get_compressed_size` never invokes the
compressor.  For the compressor `fun _ => []` the spec-side quantity is 0
while the source records the raw filtered length 4. -/
theorem C2_cex_not_compressed_length :
    get_compressed_size .None [7, 8] 1 1 = .ok 4 ∧
    compressed_sample_size (fun _ => []) .None [7, 8] 1 1 = .ok 0 ∧
    (4 : Nat) ≠ 0 ∧
    infer_best_filter [7, 8] 1 1 = .ok .Paeth := by
  decide

/-- C2 (amended): the inference runs each of the five filters over the
sampled scanlines and records the length of the raw filtered,
UNCOMPRESSED output — the same value `rows * (1 + row_stride)` for every
filter — and returns the filter whose recorded value is largest, the tie
resolving to the last enumerated variant, Paeth. -/
theorem C2_inference_records_raw_lengths (data : List Nat) (s pb : Nat)
    (hpb1 : 1 ≤ pb) (hpb : pb ≤ s) (hdvd : s ∣ data.length)
    (hlen : s ≤ data.length) :
    infer_best_filter data s pb = .ok .Paeth ∧
    (∀ f, get_compressed_size f (tiny_image_data data s) s pb =
      (Filter.apply f (tiny_image_data data s) s pb).map List.length) ∧
    (∀ f, get_compressed_size f (tiny_image_data data s) s pb =
      .ok ((tiny_image_data data s).length / s * (1 + s))) := by
  obtain ⟨h1, h2⟩ := infer_best_filter_eq data s pb (by omega) hpb hdvd hlen
  exact ⟨h1, fun f => rfl, h2⟩

/-- C2 witness: the amended theorem on a concrete two-row buffer. -/
theorem C2_witness :
    infer_best_filter [7, 8] 1 1 = .ok .Paeth ∧
    (∀ f, get_compressed_size f (tiny_image_data [7, 8] 1) 1 1 =
      (Filter.apply f (tiny_image_data [7, 8] 1) 1 1).map List.length) ∧
    (∀ f, get_compressed_size f (tiny_image_data [7, 8] 1) 1 1 =
      .ok ((tiny_image_data [7, 8] 1).length / 1 * (1 + 1))) :=
  C2_inference_records_raw_lengths [7, 8] 1 1 (by decide) (by decide)
    (by decide) (by decide)

/-- C3 counterexample: a buffer strictly larger than
`height * row_stride` is ACCEPTED when the frame has a y-offset — a 12-byte
buffer for a 2×1 sub-rectangle (exact size 6) at `y = 1` passes validation
and the `write_frame` call succeeds. -/
theorem C3_cex_larger_buffer_accepted :
    (runTrace id (initState (metaRGB 2))
      [.writeFrame fourPix Option.none (some .None) Option.none,
       .writeFrame fourPix (some { y := some 1, height := some 1 })
         (some .None) Option.none]).1 = [.ok (), .ok ()] ∧
    (fourPix.length = 12) ∧
    1 * 6 < 12 := by
  decide

/-- C3 (amended): with the stride computed from the frame rectangle and the
rectangle inside the canvas, `compute_row_stride` accepts a buffer of
length exactly `height * row_stride` and rejects any strictly smaller
buffer with `TooSmallImage`; a strictly larger buffer is rejected with
`TooLargeImage` only when its implied row count `len / row_stride` exceeds
`y + height` — otherwise it is accepted. -/
theorem C3_buffer_size_validation (meta : Meta) (data : List Nat)
    (rect : Rectangle) (hs : 1 ≤ rect.width * meta.color.pixel_bytes)
    (hr : rect.right ≤ meta.width) (hb : rect.bottom ≤ meta.height) :
    (data.length = rect.height * (rect.width * meta.color.pixel_bytes) →
      compute_row_stride meta data Option.none rect =
        .ok (rect.width * meta.color.pixel_bytes)) ∧
    (data.length < rect.height * (rect.width * meta.color.pixel_bytes) →
      compute_row_stride meta data Option.none rect = .err .TooSmallImage) ∧
    (rect.bottom < data.length / (rect.width * meta.color.pixel_bytes) →
      compute_row_stride meta data Option.none rect = .err .TooLargeImage) ∧
    (rect.height ≤ data.length / (rect.width * meta.color.pixel_bytes) →
      data.length / (rect.width * meta.color.pixel_bytes) ≤ rect.bottom →
      compute_row_stride meta data Option.none rect =
        .ok (rect.width * meta.color.pixel_bytes)) := by
  unfold compute_row_stride
  simp only [Option.getD]
  have hbh : rect.height ≤ rect.bottom := by
    unfold Rectangle.bottom
    omega
  refine ⟨?_, ?_, ?_, ?_⟩
  · intro hexact
    rw [if_neg (by omega)]
    have hdh : data.length / (rect.width * meta.color.pixel_bytes) =
        rect.height := by
      rw [hexact, Nat.mul_div_cancel _ (by omega)]
    rw [if_neg (by rw [hdh]; omega), if_neg (by rw [hdh]; omega)]
  · intro hsmall
    have hdh : data.length / (rect.width * meta.color.pixel_bytes) <
        rect.height := by
      rw [Nat.div_lt_iff_lt_mul (by omega)]
      omega
    rw [if_neg (by omega), if_neg (by omega), if_pos hdh]
  · intro hlarge
    rw [if_neg (by omega), if_pos (by omega)]
  · intro hge hle
    rw [if_neg (by omega), if_neg (by omega), if_neg (by omega)]

/-- C3 witness: the amended theorem on a full-canvas 2×2 RGB-8 rectangle
and a 13-byte buffer (strictly larger than the exact 12, implied row count
2 ≤ bottom): accepted. -/
theorem C3_witness :
    compute_row_stride (metaRGB 1) (List.replicate 13 0) Option.none
      (compute_rect (metaRGB 1) Option.none) = .ok 6 :=
  (C3_buffer_size_validation (metaRGB 1) (List.replicate 13 0)
    (compute_rect (metaRGB 1) Option.none) (by decide) (by decide)
    (by decide)).2.2.2 (by decide) (by decide)

end Apng
